import Mathlib

/-!
Verification of the two Dijkstra implementations in this repository
(`dijkstra.py`, the linear-scan variant, and `dijkstra_pq.py`, the
binary-heap variant) against their specification.

Modelling conventions, fixed once for the whole development:

* Vertices are an arbitrary linearly ordered type `V` (the Python sources use
  strings, ordered lexicographically; the concrete test graphs below use `Nat`
  with a number assigned to each letter in alphabetical order, which realises
  the same ordering).
* Edge weights are integers (`Int`); the tentative distance values, which in
  Python are either numbers or the float `inf`, are modelled as
  `Cost := WithTop Int`, with `⊤` playing the role of `inf`.
* A Python graph `dict` is modelled as an association list that keeps the
  dict's insertion order: `GraphL V := List (V × List (V × Int))`.  Python
  dicts have unique keys, which is the `WFGraph` predicate below.
* Python `is` comparisons on vertices (`vertex is source`, `nearest is
  target`) are modelled as equality, as in the specification's data model of
  vertices as comparable identifiers.
* The iteration order of the Python set `set(graph)` (used by `dijkstra.py`
  to build the `distance` dict, whose order is the tie-break order of the
  `sorted` scan) is unspecified in CPython; it is modelled as the graph's key
  order.  All facts proved about concrete runs are independent of this choice
  except for tie-breaking between equal tentative distances.
* `heapq` with entries `(priority, vertex)` that are pushed once and never
  pushed again (as in `dijkstra_pq.py`) pops entries in increasing
  lexicographic order of the pairs; the pop sequence is therefore modelled as
  the sorted list of the initial entries.
* Raised exceptions are modelled as distinguished result constructors
  (`lookupError` for `LookupError`, `valueError` for `ValueError`, `keyError`
  for `KeyError`), and the two ad-hoc return shapes of `dijkstra.py` —
  `("unreachable", inf)` and `(None, 0)` — as the constructors `strInfPair`
  and `noneZero`.  Loops that Python runs unboundedly are given explicit fuel
  together with a `diverge` marker for fuel exhaustion; theorems below prove
  the marker unreachable.
-/

/-- Tentative-distance values: an integer or `inf`. -/
abbrev Cost : Type := WithTop Int

/-- Adjacency of one vertex: the list of `(neighbour, weight)` pairs in the
order of the Python adjacency dict. -/
abbrev AdjList (V : Type) : Type := List (V × Int)

/-- A graph: association list from vertices to adjacency lists, in the order
of the Python graph dict. -/
abbrev GraphL (V : Type) : Type := List (V × AdjList V)

variable {V : Type} [LinearOrder V]

/-- The keys of the graph dict, in insertion order. -/
def keys (g : GraphL V) : List V := g.map Prod.fst

/-- `graph[u]`: the adjacency list of `u` (first binding wins; `[]` when
absent — both implementations only index the graph with known keys). -/
def adjOf (g : GraphL V) (u : V) : AdjList V :=
  match g with
  | [] => []
  | (v, a) :: rest => if u = v then a else adjOf rest u

/-- The weight of the edge `a → b`, when present. -/
def lookupW (g : GraphL V) (a b : V) : Option Int :=
  ((adjOf g a).find? (fun e => e.1 = b)).map Prod.snd

/-- Python dicts have unique keys: the graph's keys and each adjacency list's
keys are duplicate-free. -/
def WFGraph (g : GraphL V) : Prop :=
  (keys g).Nodup ∧ ∀ p ∈ g, (p.2.map Prod.fst).Nodup

/-- Every edge weight is non-negative. -/
def NonnegWeights (g : GraphL V) : Prop := ∀ p ∈ g, ∀ e ∈ p.2, 0 ≤ e.2

/-- Every neighbour mentioned in an adjacency list is itself a key. -/
def ClosedGraph (g : GraphL V) : Prop := ∀ p ∈ g, ∀ e ∈ p.2, e.1 ∈ keys g

instance (g : GraphL V) : Decidable (WFGraph g) := by
  unfold WFGraph; infer_instance

instance (g : GraphL V) : Decidable (NonnegWeights g) := by
  unfold NonnegWeights; infer_instance

instance (g : GraphL V) : Decidable (ClosedGraph g) := by
  unfold ClosedGraph; infer_instance

/-- Total weight of the walk that starts at `a` and then visits the listed
vertices in order; `none` when some consecutive pair is not an edge. -/
def pathWeight (g : GraphL V) : V → List V → Option Int
  | _, [] => some 0
  | a, b :: rest =>
    match lookupW g a b with
    | none => none
    | some w => (pathWeight g b rest).map (fun c => w + c)

/-- `IsPathTo g s p t c`: the vertex list `s :: p` is a walk in `g` from `s`
to `t` whose edge weights sum to `c`. -/
def IsPathTo (g : GraphL V) (s : V) (p : List V) (t : V) (c : Int) : Prop :=
  pathWeight g s p = some c ∧ (s :: p).getLast? = some t

instance (g : GraphL V) (s : V) (p : List V) (t : V) (c : Int) :
    Decidable (IsPathTo g s p t c) := by
  unfold IsPathTo; infer_instance

/-- Walks from `u`, all of whose vertices strictly before the endpoint
satisfy `P`, together with their total weight.  `ReachesVia g (fun _ => True)`
is plain reachability with a cost. -/
inductive ReachesVia (g : GraphL V) (P : V → Prop) : V → V → Int → Prop
  | refl (u : V) (h : u ∈ keys g) : ReachesVia g P u u 0
  | step {s v x : V} {c w : Int} (hp : ReachesVia g P s v c) (hv : P v)
      (he : (x, w) ∈ adjOf g v) : ReachesVia g P s x (c + w)

/-- Plain weighted reachability. -/
def Reaches (g : GraphL V) (s v : V) (c : Int) : Prop :=
  ReachesVia g (fun _ => True) s v c

/-- `v` can be reached from `s` in `g`. -/
def Reachable (g : GraphL V) (s v : V) : Prop := ∃ c, Reaches g s v c

/-- A Python dict value appearing in a returned table: a number (a tentative
distance) or a vertex (a predecessor). -/
inductive PyVal (V : Type)
  | num (c : Cost)
  | vert (v : V)
deriving DecidableEq

/-- The possible outcomes of a call to either `dijkstra` function.
`tables fst snd` is the no-target return `(fst, snd)` of two dicts, each
modelled as a map from vertex to optional value (`none` = key absent);
`pathCost` is the `(path, cost)` return; `strInfPair` is the literal pair
`("unreachable", inf)` returned by `dijkstra.py`; `noneZero` is the literal
pair `(None, 0)`; the error constructors model raised exceptions; `diverge`
marks fuel exhaustion of a modelled loop and is proved unreachable below. -/
inductive DijkstraResult (V : Type)
  | tables (fst snd : V → Option (PyVal V))
  | pathCost (path : List V) (cost : Cost)
  | strInfPair
  | noneZero
  | lookupError
  | valueError
  | keyError
  | diverge

/-- Constructor tag of a result, for decidable shape tests. -/
def tagOf : DijkstraResult V → Nat
  | .tables _ _ => 0
  | .pathCost _ _ => 1
  | .strInfPair => 2
  | .noneZero => 3
  | .lookupError => 4
  | .valueError => 5
  | .keyError => 6
  | .diverge => 7

/-- First component of a `tables` result, applied at a vertex. -/
def fstAt (r : DijkstraResult V) (v : V) : Option (PyVal V) :=
  match r with | .tables f _ => f v | _ => none

/-- Second component of a `tables` result, applied at a vertex. -/
def sndAt (r : DijkstraResult V) (v : V) : Option (PyVal V) :=
  match r with | .tables _ s => s v | _ => none

/-- The path of a `pathCost` result. -/
def pathOf : DijkstraResult V → Option (List V)
  | .pathCost p _ => some p
  | _ => none

/-- The cost of a `pathCost` result. -/
def costOf : DijkstraResult V → Option Cost
  | .pathCost _ c => some c
  | _ => none

/-! ## The linear-scan implementation (`dijkstra.py`) -/

/-- Mutable state of the `dijkstra.py` main loop: the `unvisited` set (kept
as a list in the distance dict's key order), the `distance` dict (total
function; only keys are ever read) and the `previous` dict. -/
structure LinSt (V : Type) where
  unvisited : List V
  dist : V → Cost
  prev : V → Option V

/-- `next(v for v in sorted(distance, key=distance.get) if v in unvisited)`:
the first vertex of the list attaining the minimal distance (Python's
`sorted` is stable, so among equal distances the earlier dict key wins). -/
def selectMin (dist : V → Cost) : List V → Option V
  | [] => none
  | v :: rest =>
    match selectMin dist rest with
    | none => some v
    | some w => if dist v ≤ dist w then some v else some w

/-- Outcome of relaxing the out-edges of one vertex in `dijkstra.py`:
either the updated state or the `ValueError` raised on a negative weight. -/
inductive RelaxOut (V : Type)
  | ok (st : LinSt V)
  | negEdge

/-- The `for neighbour in graph[nearest]` body of `dijkstra.py` (lines
80–92): skip visited neighbours, raise on a negative weight, assign
unconditionally when relaxing from the source, otherwise relax with strict
improvement. -/
def linRelax (source u : V) : AdjList V → LinSt V → RelaxOut V
  | [], st => .ok st
  | (v, w) :: rest, st =>
    if v ∈ st.unvisited then
      if w < 0 then .negEdge
      else if u = source then
        linRelax source u rest
          { st with
            dist := fun x => if x = v then (w : Cost) else st.dist x,
            prev := fun x => if x = v then some source else st.prev x }
      else if st.dist u + (w : Cost) < st.dist v then
        linRelax source u rest
          { st with
            dist := fun x => if x = v then st.dist u + (w : Cost) else st.dist x,
            prev := fun x => if x = v then some u else st.prev x }
      else linRelax source u rest st
    else linRelax source u rest st

/-- Outcome of a backtracking loop: the built path, a `KeyError` from a
missing predecessor, or fuel exhaustion. -/
inductive BtOut (V : Type)
  | ok (p : List V)
  | keyErr
  | fuelOut

/-- The `while predecessor != source` backtracking loop of `dijkstra.py`
(lines 102–104): prepend the current vertex and follow `previous`
(`previous[predecessor]` raises `KeyError` when absent). -/
def linBacktrack (prev : V → Option V) (source : V) : Nat → V → List V → BtOut V
  | 0, p, acc => if p = source then .ok acc else .fuelOut
  | n + 1, p, acc =>
    if p = source then .ok acc
    else
      match prev p with
      | none => .keyErr
      | some q => linBacktrack prev source n q (p :: acc)

/-- What `dijkstra.py` does after its main loop finishes normally: return
the two dicts when no target was given, otherwise reconstruct the path and
return `(path, distance[target])`. -/
def linFinish (g : GraphL V) (source : V) (target : Option V) (st : LinSt V) :
    DijkstraResult V :=
  match target with
  | none =>
      .tables (fun v => if v ∈ keys g then some (.num (st.dist v)) else none)
        (fun v => (st.prev v).map PyVal.vert)
  | some t =>
      match linBacktrack st.prev source ((keys g).length + 1) t [] with
      | .ok p => .pathCost p (st.dist t)
      | .keyErr => .keyError
      | .fuelOut => .diverge

/-- The `while unvisited` main loop of `dijkstra.py` (lines 64–92): pick the
nearest unvisited vertex, remove it, return `("unreachable", inf)` if it is
the target and still at infinity, otherwise relax its out-edges and
continue. -/
def linLoop (g : GraphL V) (source : V) (target : Option V) :
    Nat → LinSt V → DijkstraResult V
  | 0, st => if st.unvisited = [] then linFinish g source target st else .diverge
  | fuel + 1, st =>
    if st.unvisited = [] then linFinish g source target st
    else
      match selectMin st.dist st.unvisited with
      | none => .diverge
      | some u =>
          if target = some u ∧ st.dist u = ⊤ then .strInfPair
          else
            match linRelax source u (adjOf g u)
                { st with unvisited := st.unvisited.erase u } with
            | .negEdge => .valueError
            | .ok st2 => linLoop g source target fuel st2

/-- Initial state of `dijkstra.py`: all of the graph's vertices unvisited,
the source at distance `0`, everything else at `inf`, no predecessors. -/
def linInit (g : GraphL V) (source : V) : LinSt V :=
  { unvisited := keys g
    dist := fun v => if v = source then (0 : Cost) else ⊤
    prev := fun _ => none }

/-- The function `dijkstra` of `dijkstra.py`.  The guard of lines 51–53
raises `LookupError` only when a target was supplied and the source or the
target is missing; `source == target` returns `(None, 0)`. -/
def linDijkstra (g : GraphL V) (source : V) (target : Option V) : DijkstraResult V :=
  match target with
  | some t =>
      if source ∉ keys g ∨ t ∉ keys g then .lookupError
      else if source = t then .noneZero
      else linLoop g source (some t) (keys g).length (linInit g source)
  | none => linLoop g source none (keys g).length (linInit g source)

/-! ## The binary-heap implementation (`dijkstra_pq.py`) -/

/-- Mutable state of the `dijkstra_pq.py` loop: the `distance` and
`previous` dicts (the heap itself is modelled by the pop-order list). -/
structure PqSt (V : Type) where
  dist : V → Cost
  prev : V → Option V

/-- Lexicographic order on heap entries `(priority, vertex)`, the order in
which Python tuples compare. -/
def pqLe (a b : Cost × V) : Prop := a.1 < b.1 ∨ (a.1 = b.1 ∧ a.2 ≤ b.2)

instance : DecidableRel (pqLe (V := V)) := fun a b => by unfold pqLe; infer_instance

/-- The sequence of `heappop` results of `dijkstra_pq.py`: every vertex is
pushed exactly once (priority `0` for the source, `inf` otherwise) and the
heap is never pushed to afterwards, so the pops deliver the initial entries
in increasing lexicographic order. -/
def popOrder (g : GraphL V) (source : V) : List (Cost × V) :=
  ((keys g).map (fun v => ((if v = source then (0 : Cost) else ⊤), v))).insertionSort pqLe

/-- Outcome of `dijkstra_pq.py` processing: final dicts, the `ValueError`
raised on a negative weight, or the `KeyError` raised by
`distance[neighbour]` when a neighbour is not a graph key. -/
inductive PqOut (V : Type)
  | fin (st : PqSt V)
  | valErr
  | keyErr

/-- The `for neighbour, cost in graph[nearest].items()` body of
`dijkstra_pq.py` (lines 40–46): raise on a negative weight, then relax with
strict improvement (`distance[neighbour]` raises `KeyError` for a neighbour
that is not a key). -/
def pqRelax (g : GraphL V) (u : V) : AdjList V → PqSt V → PqOut V
  | [], st => .fin st
  | (v, w) :: rest, st =>
    if w < 0 then .valErr
    else if v ∈ keys g then
      if st.dist u + (w : Cost) < st.dist v then
        pqRelax g u rest
          { dist := fun x => if x = v then st.dist u + (w : Cost) else st.dist x
            prev := fun x => if x = v then some u else st.prev x }
      else pqRelax g u rest st
    else .keyErr

/-- The `while unvisited` loop of `dijkstra_pq.py` (lines 32–46): pop the
next entry, break when the popped vertex equals the target, otherwise relax
its out-edges. -/
def pqLoop (g : GraphL V) (target : Option V) : List (Cost × V) → PqSt V → PqOut V
  | [], st => .fin st
  | (_, u) :: rest, st =>
    if target = some u then .fin st
    else
      match pqRelax g u (adjOf g u) st with
      | .valErr => .valErr
      | .keyErr => .keyErr
      | .fin st' => pqLoop g target rest st'

/-- The `while predecessor is not None` backtracking loop of
`dijkstra_pq.py` (lines 55–57): prepend the current vertex and follow
`previous.get`. -/
def pqBacktrack (prev : V → Option V) : Nat → Option V → List V → BtOut V
  | _, none, acc => .ok acc
  | 0, some _, _ => .fuelOut
  | n + 1, some p, acc => pqBacktrack prev n (prev p) (p :: acc)

/-- What `dijkstra_pq.py` returns after its loop: with no target the pair
`(previous, distance)` — in that order — and with a target the pair
`(path, distance[target])`. -/
def pqFinish (g : GraphL V) (target : Option V) (st : PqSt V) : DijkstraResult V :=
  match target with
  | none =>
      .tables (fun v => (st.prev v).map PyVal.vert)
        (fun v => if v ∈ keys g then some (.num (st.dist v)) else none)
  | some t =>
      match pqBacktrack st.prev ((keys g).length + 1) (some t) [] with
      | .ok p => .pathCost p (st.dist t)
      | .keyErr => .keyError
      | .fuelOut => .diverge

/-- Initial dicts of `dijkstra_pq.py`: the comprehension of line 30 maps
each vertex to its pushed priority. -/
def pqInit (_g : GraphL V) (source : V) : PqSt V :=
  { dist := fun v => if v = source then (0 : Cost) else ⊤
    prev := fun _ => none }

/-- The function `dijkstra` of `dijkstra_pq.py` (same guard as the linear
variant, no source-equals-target short-circuit). -/
def pqDijkstra (g : GraphL V) (source : V) (target : Option V) : DijkstraResult V :=
  match target with
  | some t =>
      if source ∉ keys g ∨ t ∉ keys g then .lookupError
      else
        match pqLoop g (some t) (popOrder g source) (pqInit g source) with
        | .valErr => .valueError
        | .keyErr => .keyError
        | .fin st => pqFinish g (some t) st
  | none =>
      match pqLoop g none (popOrder g source) (pqInit g source) with
      | .valErr => .valueError
      | .keyErr => .keyError
      | .fin st => pqFinish g none st

/-! ## One iteration of the linear-scan loop, exposed

Used to inspect the intermediate state of `dijkstra.py`'s main loop: one
iteration selects the nearest unvisited vertex, removes it and relaxes its
out-edges (`none` on a raised `ValueError` or an empty frontier). -/

/-- A single iteration of the `while unvisited` loop of `dijkstra.py`,
returning the successor state. -/
def linStep (g : GraphL V) (source : V) (st : LinSt V) : Option (LinSt V) :=
  match selectMin st.dist st.unvisited with
  | none => none
  | some u =>
      match linRelax source u (adjOf g u) { st with unvisited := st.unvisited.erase u } with
      | .ok st' => some st'
      | .negEdge => none

/-! ## Generic facts about reachability -/

/-- Nothing but `s` itself is reachable from a vertex `s` with no outgoing
edges. -/
theorem eq_of_reachesVia_empty_adj {g : GraphL V} {P : V → Prop} {s v : V} {c : Int}
    (hadj : adjOf g s = []) (h : ReachesVia g P s v c) : v = s := by
  induction h with
  | refl => rfl
  | step hp hv he ih =>
      rw [ih] at he
      rw [hadj] at he
      exact absurd he (List.not_mem_nil _)

/-- A vertex different from `s` is unreachable from `s` when `s` has no
outgoing edges. -/
theorem not_reachable_of_empty_adj {g : GraphL V} {s v : V}
    (hadj : adjOf g s = []) (hne : v ≠ s) : ¬ Reachable g s v := by
  rintro ⟨c, h⟩
  exact hne (eq_of_reachesVia_empty_adj hadj h)

/-! ## The repository's concrete graphs

Vertex letters are encoded as naturals in alphabetical order, which mirrors
the lexicographic ordering of the Python strings.

* `sampleG1` is `test_graph` of `dijkstra.py`:
  `{s:{a:1,b:5}, a:{b:2,c:2,d:1}, b:{d:2}, c:{d:3,e:1}, d:{e:2}, e:{}}`
  with `a=0, b=1, c=2, d=3, e=4, s=5` (dict order `s,a,b,c,d,e`).
* `sampleG2` is `test_graph_2`:
  `{a:{b:4,c:2}, b:{c:5,d:10}, c:{e:3}, d:{f:11}, e:{d:4}, f:{}}`
  with `a..f = 0..5`.
* `chainGraph` is `{s:{b:1}, b:{a:1}, a:{c:1}, c:{}}` with
  `a=0, b=1, c=2, s=3` (dict order `s,b,a,c`).
* `gadgetGraph` is `{s:{a:10,b:1}, a:{t:1}, b:{a:1}, t:{}}` with
  `a=0, b=1, s=2, t=3` (dict order `s,a,b,t`).
* `negGraph` is `{a:{b:1}, b:{a:-1}}` with `a=0, b=1`.
* `soloGraph` is `{a:{}}` with `a=0`. -/

/-- `test_graph` of `dijkstra.py` (see the mapping above). -/
def sampleG1 : GraphL Nat :=
  [(5, [(0, 1), (1, 5)]), (0, [(1, 2), (2, 2), (3, 1)]), (1, [(3, 2)]),
   (2, [(3, 3), (4, 1)]), (3, [(4, 2)]), (4, [])]

/-- `test_graph_2` of `dijkstra.py` (see the mapping above). -/
def sampleG2 : GraphL Nat :=
  [(0, [(1, 4), (2, 2)]), (1, [(2, 5), (3, 10)]), (2, [(4, 3)]),
   (3, [(5, 11)]), (4, [(3, 4)]), (5, [])]

/-- The chain `s → b → a → c`, each edge of weight 1 (see the mapping
above). -/
def chainGraph : GraphL Nat :=
  [(3, [(1, 1)]), (1, [(0, 1)]), (0, [(2, 1)]), (2, [])]

/-- A graph on which the heap variant's returned cost disagrees with its
returned path (see the mapping above). -/
def gadgetGraph : GraphL Nat :=
  [(2, [(0, 10), (1, 1)]), (0, [(3, 1)]), (1, [(0, 1)]), (3, [])]

/-- Two vertices with a negative edge back from `b` to `a` (see the mapping
above). -/
def negGraph : GraphL Nat := [(0, [(1, 1)]), (1, [(0, -1)])]

/-- A single isolated vertex. -/
def soloGraph : GraphL Nat := [(0, [])]

/-! ## Counterexamples -/

/-- C1 counterexample: on the chain graph (well formed, non-negative
weights, closed, source a key), the heap implementation's no-target
distance table maps the reachable vertex `c` (= `2`, reached by the path
`s → b → a → c` of weight 3) to `inf` instead of a minimal path weight. -/
theorem c1_counterexample :
    WFGraph chainGraph ∧ NonnegWeights chainGraph ∧ ClosedGraph chainGraph ∧
    3 ∈ keys chainGraph ∧ IsPathTo chainGraph 3 [1, 0, 2] 2 3 ∧
    sndAt (pqDijkstra chainGraph 3 none) 2 = some (.num ⊤) := by decide

/-- C2 counterexample: on the repository's own second test graph with
source `a`, the two implementations return different distance tables: the
linear scan puts `f` at 20, the heap variant at 25. -/
theorem c2_counterexample :
    WFGraph sampleG2 ∧ NonnegWeights sampleG2 ∧ ClosedGraph sampleG2 ∧
    0 ∈ keys sampleG2 ∧
    fstAt (linDijkstra sampleG2 0 none) 5 = some (.num ((20 : Int) : Cost)) ∧
    sndAt (pqDijkstra sampleG2 0 none) 5 = some (.num ((25 : Int) : Cost)) := by decide

/-- C3 counterexample: two successful target calls (non-negative weights,
endpoints in the graph, target reachable) violating the claim.  On the
first sample graph from `s` to `e`, the linear scan returns the path
`[a, d, e]`, which does not start at the source `s`.  On the gadget graph
from `s` to `t`, the heap variant returns the path `[s, b, a, t]`, whose
edge weights sum to 3, together with the different cost 11. -/
theorem c3_counterexample :
    (NonnegWeights sampleG1 ∧ 5 ∈ keys sampleG1 ∧ 4 ∈ keys sampleG1 ∧
      IsPathTo sampleG1 5 [0, 3, 4] 4 4 ∧
      pathOf (linDijkstra sampleG1 5 (some 4)) = some [0, 3, 4] ∧
      (0 : Nat) ≠ 5) ∧
    (NonnegWeights gadgetGraph ∧ 2 ∈ keys gadgetGraph ∧ 3 ∈ keys gadgetGraph ∧
      IsPathTo gadgetGraph 2 [1, 0, 3] 3 3 ∧
      pathOf (pqDijkstra gadgetGraph 2 (some 3)) = some [2, 1, 0, 3] ∧
      costOf (pqDijkstra gadgetGraph 2 (some 3)) = some ((11 : Int) : Cost) ∧
      pathWeight gadgetGraph 2 [1, 0, 3] = some 3 ∧ (3 : Int) ≠ 11) := by decide

/-- C4 counterexample: on the second test graph with source `f` and target
`a` (no path exists), `dijkstra.py` returns the ordinary pair
`("unreachable", inf)` (tag 2) and `dijkstra_pq.py` returns the ordinary
pair `([a], inf)`; neither raises a typed error. -/
theorem c4_counterexample :
    ¬ Reachable sampleG2 5 0 ∧
    tagOf (linDijkstra sampleG2 5 (some 0)) = 2 ∧
    pathOf (pqDijkstra sampleG2 5 (some 0)) = some [0] ∧
    costOf (pqDijkstra sampleG2 5 (some 0)) = some ⊤ ∧
    WFGraph sampleG2 ∧ NonnegWeights sampleG2 ∧
    5 ∈ keys sampleG2 ∧ 0 ∈ keys sampleG2 := by
  refine ⟨not_reachable_of_empty_adj (by decide) (by decide), ?_⟩
  decide

/-- C5 counterexample: a no-target call whose source is not a key of the
graph returns the two tables normally (tag 0) in both implementations
instead of failing with `LookupError`. -/
theorem c5_counterexample :
    (1 : Nat) ∉ keys soloGraph ∧
    tagOf (linDijkstra soloGraph 1 none) = 0 ∧
    tagOf (pqDijkstra soloGraph 1 none) = 0 := by decide

/-- C6 counterexample: in `negGraph` the edge `b → a` has weight `-1` and
`b` is reachable from the source `a`, so the loop pops `b` and iterates
over this edge, yet the linear scan returns the tables normally: the
visited-neighbour check of line 81 skips the edge before the negativity
check of line 83 runs.  (The heap variant does raise `ValueError`.) -/
theorem c6_counterexample :
    IsPathTo negGraph 0 [1] 1 1 ∧ lookupW negGraph 1 0 = some (-1) ∧
    tagOf (linDijkstra negGraph 0 none) = 0 ∧
    fstAt (linDijkstra negGraph 0 none) 1 = some (.num ((1 : Int) : Cost)) ∧
    tagOf (pqDijkstra negGraph 0 none) = 5 := by decide

/-- C7 counterexample: with source = target = `s` on the first sample
graph, `dijkstra.py` returns `(None, 0)` (tag 3) — not the single-vertex
path `[s]` — while `dijkstra_pq.py` does return `([s], 0)`. -/
theorem c7_counterexample :
    5 ∈ keys sampleG1 ∧
    tagOf (linDijkstra sampleG1 5 (some 5)) = 3 ∧
    pathOf (linDijkstra sampleG1 5 (some 5)) = none ∧
    pathOf (pqDijkstra sampleG1 5 (some 5)) = some [5] ∧
    costOf (pqDijkstra sampleG1 5 (some 5)) = some ((0 : Int) : Cost) := by decide

/-- C8 counterexample: a run of `dijkstra.py` on the first sample graph
with target `a`, which is popped at the second iteration.  The main loop
does not produce its result within two iterations (the fuel-2 run hits the
fuel marker, tag 7) but completes with six (tag 1), and after the iteration
that pops the target the distances of `b` and `c` are both 3 — values
obtainable only by relaxing the target's own out-edges (`b` improves from 5
to 3 via `a`, and `c` is adjacent only from `a`).  So the engine neither
stops when the target is popped nor skips the target's edges. -/
theorem c8_counterexample :
    tagOf (linLoop sampleG1 5 (some 0) 2 (linInit sampleG1 5)) = 7 ∧
    tagOf (linLoop sampleG1 5 (some 0) 6 (linInit sampleG1 5)) = 1 ∧
    ((linStep sampleG1 5 (linInit sampleG1 5)).bind (linStep sampleG1 5)).map
        (fun st => (st.dist 1, st.dist 2))
      = some (((3 : Int) : Cost), ((3 : Int) : Cost)) := by decide

/-- C9 counterexample: the no-target return of `dijkstra_pq.py` is
`(previous, distance)`: its first component holds the predecessor vertex
`s` at key `a`, not the numeric distance 1 (which sits in the second
component); `dijkstra.py` returns `(distance, previous)`. -/
theorem c9_counterexample :
    fstAt (pqDijkstra sampleG1 5 none) 0 = some (.vert 5) ∧
    sndAt (pqDijkstra sampleG1 5 none) 0 = some (.num ((1 : Int) : Cost)) ∧
    fstAt (linDijkstra sampleG1 5 none) 0 = some (.num ((1 : Int) : Cost)) := by decide

/-! ## Shape of the results -/

/-- Every run of the linear main loop ends in a finish of some final state,
the `("unreachable", inf)` sentinel, a `ValueError`, or the fuel marker. -/
theorem linLoop_cases (g : GraphL V) (s : V) (t : Option V) :
    ∀ fuel st, (∃ stF, linLoop g s t fuel st = linFinish g s t stF) ∨
      linLoop g s t fuel st = .strInfPair ∨
      linLoop g s t fuel st = .valueError ∨
      linLoop g s t fuel st = .diverge := by
  intro fuel
  induction fuel with
  | zero =>
      intro st
      by_cases h : st.unvisited = []
      · exact .inl ⟨st, by simp [linLoop, h]⟩
      · exact .inr (.inr (.inr (by simp [linLoop, h])))
  | succ n ih =>
      intro st
      simp only [linLoop]
      split
      · exact .inl ⟨st, rfl⟩
      · split
        · exact .inr (.inr (.inr rfl))
        · split
          · exact .inr (.inl rfl)
          · split
            · exact .inr (.inr (.inl rfl))
            · exact ih _

/-- Every run of the heap loop ends with final dicts, a `ValueError`, or a
`KeyError`. -/
theorem pqLoop_cases (g : GraphL V) (t : Option V) :
    ∀ l st, (∃ stF, pqLoop g t l st = .fin stF) ∨
      pqLoop g t l st = .valErr ∨ pqLoop g t l st = .keyErr := by
  intro l
  induction l with
  | nil => exact fun st => .inl ⟨st, rfl⟩
  | cons e rest ih =>
      intro st
      obtain ⟨c, u⟩ := e
      simp only [pqLoop]
      split
      · exact .inl ⟨st, rfl⟩
      · split
        · exact .inr (.inl rfl)
        · exact .inr (.inr rfl)
        · exact ih _

/-- `linFinish` never yields the sentinel pairs or the input-validation
errors. -/
theorem linFinish_shape (g : GraphL V) (s : V) (t : Option V) (st : LinSt V) :
    (t = none ∧ linFinish g s t st =
        .tables (fun v => if v ∈ keys g then some (.num (st.dist v)) else none)
          (fun v => (st.prev v).map PyVal.vert)) ∨
    (∃ tv p, t = some tv ∧ linFinish g s t st = .pathCost p (st.dist tv)) ∨
    (∃ tv, t = some tv ∧ linFinish g s t st = .keyError) ∨
    (∃ tv, t = some tv ∧ linFinish g s t st = .diverge) := by
  cases t with
  | none => exact .inl ⟨rfl, rfl⟩
  | some tv =>
      right
      simp only [linFinish]
      cases linBacktrack st.prev s ((keys g).length + 1) tv [] with
      | ok p => exact .inl ⟨tv, p, rfl, rfl⟩
      | keyErr => exact .inr (.inl ⟨tv, rfl, rfl⟩)
      | fuelOut => exact .inr (.inr ⟨tv, rfl, rfl⟩)

/-- C5: amended.  The `LookupError` of either implementation fires exactly
when a target is supplied and the source or the target is not a key of the
graph; a call without a target never raises it — in particular an unknown
source with no target is accepted (see the counterexample, where such a
call returns its tables normally). -/
theorem c5_theorem (g : GraphL V) (s t : V) :
    (linDijkstra g s (some t) = .lookupError ↔ (s ∉ keys g ∨ t ∉ keys g)) ∧
    (pqDijkstra g s (some t) = .lookupError ↔ (s ∉ keys g ∨ t ∉ keys g)) ∧
    linDijkstra g s none ≠ .lookupError ∧
    pqDijkstra g s none ≠ .lookupError := by
  refine ⟨?_, ?_, ?_, ?_⟩
  · constructor
    · intro h
      by_contra hg
      simp only [linDijkstra, if_neg hg] at h
      by_cases hst : s = t
      · simp only [hst, if_pos rfl] at h
        exact DijkstraResult.noConfusion h
      · simp only [if_neg hst] at h
        rcases linLoop_cases g s (some t) (keys g).length (linInit g s) with
          ⟨stF, hF⟩ | h2 | h2 | h2
        · rw [hF] at h
          rcases linFinish_shape g s (some t) stF with
            ⟨hN, _⟩ | ⟨_, _, _, hE⟩ | ⟨_, _, hE⟩ | ⟨_, _, hE⟩
          · exact Option.noConfusion hN
          · rw [hE] at h; exact DijkstraResult.noConfusion h
          · rw [hE] at h; exact DijkstraResult.noConfusion h
          · rw [hE] at h; exact DijkstraResult.noConfusion h
        all_goals rw [h2] at h; exact DijkstraResult.noConfusion h
    · intro h
      simp [linDijkstra, h]
  · constructor
    · intro h
      by_contra hg
      simp only [pqDijkstra, if_neg hg] at h
      rcases pqLoop_cases g (some t) (popOrder g s) (pqInit g s) with
        ⟨stF, hF⟩ | h2 | h2
      · rw [hF] at h
        simp only [pqFinish] at h
        rcases hbt : pqBacktrack stF.prev ((keys g).length + 1) (some t) [] with p | _ | _ <;>
          rw [hbt] at h <;> exact DijkstraResult.noConfusion h
      all_goals rw [h2] at h; exact DijkstraResult.noConfusion h
    · intro h
      simp [pqDijkstra, h]
  · intro h
    rcases linLoop_cases g s none (keys g).length (linInit g s) with
      ⟨stF, hF⟩ | h2 | h2 | h2
    · simp only [linDijkstra] at h
      rw [hF] at h
      rcases linFinish_shape g s none stF with
        ⟨_, hE⟩ | ⟨_, _, hN, _⟩ | ⟨_, hN, _⟩ | ⟨_, hN, _⟩
      · rw [hE] at h; exact DijkstraResult.noConfusion h
      all_goals exact Option.noConfusion hN
    all_goals simp only [linDijkstra] at h; rw [h2] at h; exact DijkstraResult.noConfusion h
  · intro h
    simp only [pqDijkstra] at h
    rcases pqLoop_cases g none (popOrder g s) (pqInit g s) with ⟨stF, hF⟩ | h2 | h2
    · rw [hF] at h
      simp only [pqFinish] at h
      exact DijkstraResult.noConfusion h
    all_goals rw [h2] at h; exact DijkstraResult.noConfusion h

/-- C5 witness: instantiation at the solo graph with a supplied unknown
target. -/
theorem c5_witness :
    linDijkstra soloGraph 0 (some 1) = .lookupError ∧
    pqDijkstra soloGraph 0 (some 1) = .lookupError := by
  have h := c5_theorem soloGraph 0 1
  exact ⟨h.1.mpr (by decide), h.2.1.mpr (by decide)⟩

/-- C9: amended.  In the no-target return of `dijkstra.py` the first
component is the numeric distance table and the second the predecessor
table, but `dijkstra_pq.py` returns the pair the other way round: its first
component is vertex-valued (predecessors) and its second numeric
(distances). -/
theorem c9_theorem (g : GraphL V) (s : V) :
    (∀ v, (∃ c, fstAt (linDijkstra g s none) v = some (.num c)) ∨
        fstAt (linDijkstra g s none) v = none) ∧
    (∀ v, (∃ u, sndAt (linDijkstra g s none) v = some (.vert u)) ∨
        sndAt (linDijkstra g s none) v = none) ∧
    (∀ v, (∃ u, fstAt (pqDijkstra g s none) v = some (.vert u)) ∨
        fstAt (pqDijkstra g s none) v = none) ∧
    (∀ v, (∃ c, sndAt (pqDijkstra g s none) v = some (.num c)) ∨
        sndAt (pqDijkstra g s none) v = none) := by
  have hlin := linLoop_cases g s none (keys g).length (linInit g s)
  have hpq := pqLoop_cases g none (popOrder g s) (pqInit g s)
  refine ⟨?_, ?_, ?_, ?_⟩
  · intro v
    rcases hlin with ⟨stF, hF⟩ | h2 | h2 | h2
    · rcases linFinish_shape g s none stF with ⟨_, hE⟩ | ⟨_, _, hN, _⟩ | ⟨_, hN, _⟩ | ⟨_, hN, _⟩
      · simp only [linDijkstra, hF, hE, fstAt]
        by_cases hv : v ∈ keys g
        · exact .inl ⟨stF.dist v, by simp [hv]⟩
        · exact .inr (by simp [hv])
      all_goals exact Option.noConfusion hN
    all_goals exact .inr (by simp [linDijkstra, h2, fstAt])
  · intro v
    rcases hlin with ⟨stF, hF⟩ | h2 | h2 | h2
    · rcases linFinish_shape g s none stF with ⟨_, hE⟩ | ⟨_, _, hN, _⟩ | ⟨_, hN, _⟩ | ⟨_, hN, _⟩
      · simp only [linDijkstra, hF, hE, sndAt]
        cases hp : stF.prev v with
        | none => exact .inr (by simp)
        | some u => exact .inl ⟨u, by simp⟩
      all_goals exact Option.noConfusion hN
    all_goals exact .inr (by simp [linDijkstra, h2, sndAt])
  · intro v
    rcases hpq with ⟨stF, hF⟩ | h2 | h2
    · simp only [pqDijkstra, hF, pqFinish, fstAt]
      cases hp : stF.prev v with
      | none => exact .inr (by simp)
      | some u => exact .inl ⟨u, by simp⟩
    all_goals exact .inr (by simp [pqDijkstra, h2, fstAt])
  · intro v
    rcases hpq with ⟨stF, hF⟩ | h2 | h2
    · simp only [pqDijkstra, hF, pqFinish, sndAt]
      by_cases hv : v ∈ keys g
      · exact .inl ⟨stF.dist v, by simp [hv]⟩
      · exact .inr (by simp [hv])
    all_goals exact .inr (by simp [pqDijkstra, h2, sndAt])

/-- C9 witness: instantiation on the first sample graph at vertex `a`. -/
theorem c9_witness :
    ((∃ c, fstAt (linDijkstra sampleG1 5 none) 0 = some (.num c)) ∨
      fstAt (linDijkstra sampleG1 5 none) 0 = none) ∧
    ((∃ u, fstAt (pqDijkstra sampleG1 5 none) 0 = some (.vert u)) ∨
      fstAt (pqDijkstra sampleG1 5 none) 0 = none) :=
  ⟨(c9_theorem sampleG1 5).1 0, (c9_theorem sampleG1 5).2.2.1 0⟩

/-- C2: amended.  The linear-scan and binary-heap implementations do not
produce identical distance tables for every valid input: they agree on the
repository's first sample graph for every choice of source, but they
already disagree on the repository's second sample graph (with source `a`,
`f` receives 20 from the linear scan and 25 from the heap variant — see the
counterexample). -/
theorem c2_theorem :
    (∀ s ∈ keys sampleG1, ∀ v ∈ keys sampleG1,
        fstAt (linDijkstra sampleG1 s none) v = sndAt (pqDijkstra sampleG1 s none) v) ∧
    ¬ (∀ s ∈ keys sampleG2, ∀ v ∈ keys sampleG2,
        fstAt (linDijkstra sampleG2 s none) v = sndAt (pqDijkstra sampleG2 s none) v) := by
  decide

/-- C2 witness: the agreement instance at source `s`, vertex `e` of the
first sample graph. -/
theorem c2_witness :
    fstAt (linDijkstra sampleG1 5 none) 4 = sndAt (pqDijkstra sampleG1 5 none) 4 :=
  c2_theorem.1 5 (by decide) 4 (by decide)

/-- Popping the target breaks the heap loop at once: the dicts are returned
unchanged, so the target's edges are not relaxed and nothing further is
popped. -/
theorem pqLoop_cons_target (g : GraphL V) (t : V) (c : Cost) (l : List (Cost × V))
    (st : PqSt V) : pqLoop g (some t) ((c, t) :: l) st = .fin st := by
  simp [pqLoop]

/-- The heap loop's result does not depend on the entries after the first
entry carrying the target vertex. -/
theorem pqLoop_target_suffix (g : GraphL V) (t : V) (c : Cost) :
    ∀ (l1 l2 l2' : List (Cost × V)) (st : PqSt V),
      pqLoop g (some t) (l1 ++ (c, t) :: l2) st =
        pqLoop g (some t) (l1 ++ (c, t) :: l2') st := by
  intro l1
  induction l1 with
  | nil => intro l2 l2' st; simp [pqLoop]
  | cons e rest ih =>
      intro l2 l2' st
      obtain ⟨c', u⟩ := e
      simp only [List.cons_append, pqLoop]
      split
      · rfl
      · split
        · rfl
        · rfl
        · exact ih _ _ _

/-- With a target, the linear loop either exits through the
`("unreachable", inf)` sentinel or performs exactly the computation of the
no-target run, finishing with the same final state. -/
theorem linLoop_target_run (g : GraphL V) (s t : V) :
    ∀ fuel st,
      linLoop g s (some t) fuel st = .strInfPair ∨
      (∃ stF, linLoop g s (some t) fuel st = linFinish g s (some t) stF ∧
        linLoop g s none fuel st = linFinish g s none stF) ∨
      (linLoop g s (some t) fuel st = .valueError ∧
        linLoop g s none fuel st = .valueError) ∨
      (linLoop g s (some t) fuel st = .diverge ∧
        linLoop g s none fuel st = .diverge) := by
  intro fuel
  induction fuel with
  | zero =>
      intro st
      by_cases h : st.unvisited = []
      · exact .inr (.inl ⟨st, by simp [linLoop, h], by simp [linLoop, h]⟩)
      · exact .inr (.inr (.inr ⟨by simp [linLoop, h], by simp [linLoop, h]⟩))
  | succ n ih =>
      intro st
      by_cases h : st.unvisited = []
      · exact .inr (.inl ⟨st, by simp [linLoop, h], by simp [linLoop, h]⟩)
      · simp only [linLoop, if_neg h]
        cases hsel : selectMin st.dist st.unvisited with
        | none => exact .inr (.inr (.inr ⟨rfl, rfl⟩))
        | some u =>
            simp only [reduceCtorEq, false_and, if_false]
            by_cases hT : (some t = some u ∧ st.dist u = ⊤)
            · rw [if_pos hT]
              exact .inl rfl
            · rw [if_neg hT]
              cases hrel : linRelax s u (adjOf g u)
                  { st with unvisited := st.unvisited.erase u } with
              | negEdge => exact .inr (.inr (.inl ⟨rfl, rfl⟩))
              | ok st2 => exact ih st2

/-- C8: amended.  Only the heap variant stops as soon as the target is
popped: the loop then returns its dicts unchanged (no relaxation of the
target's edges, no further pops) and the remaining heap entries are
irrelevant.  The linear variant does not stop at the target: apart from the
`("unreachable", inf)` sentinel exit, a target run performs exactly the
computation of the no-target run — relaxing the popped target's edges and
exhausting the frontier — and finishes from the same final state. -/
theorem c8_theorem (g : GraphL V) (s t : V) :
    (∀ (c : Cost) (l : List (Cost × V)) (st : PqSt V),
        pqLoop g (some t) ((c, t) :: l) st = .fin st) ∧
    (∀ (c : Cost) (l1 l2 l2' : List (Cost × V)) (st : PqSt V),
        pqLoop g (some t) (l1 ++ (c, t) :: l2) st =
          pqLoop g (some t) (l1 ++ (c, t) :: l2') st) ∧
    (∀ fuel st,
      linLoop g s (some t) fuel st = .strInfPair ∨
      (∃ stF, linLoop g s (some t) fuel st = linFinish g s (some t) stF ∧
        linLoop g s none fuel st = linFinish g s none stF) ∨
      (linLoop g s (some t) fuel st = .valueError ∧
        linLoop g s none fuel st = .valueError) ∨
      (linLoop g s (some t) fuel st = .diverge ∧
        linLoop g s none fuel st = .diverge)) :=
  ⟨fun c l st => pqLoop_cons_target g t c l st,
   fun c l1 l2 l2' st => pqLoop_target_suffix g t c l1 l2 l2' st,
   linLoop_target_run g s t⟩

/-- C8 witness: the break instance on the first sample graph. -/
theorem c8_witness :
    pqLoop sampleG1 (some 0) ((0, 0) :: []) (pqInit sampleG1 5) =
      .fin (pqInit sampleG1 5) :=
  (c8_theorem sampleG1 5 0).1 0 [] (pqInit sampleG1 5)

/-! ## Graph-lookup helper lemmas -/

/-- A vertex that is not a key has an empty adjacency. -/
theorem adjOf_eq_nil_of_not_mem {g : GraphL V} {u : V} (h : u ∉ keys g) :
    adjOf g u = [] := by
  induction g with
  | nil => rfl
  | cons p rest ih =>
      obtain ⟨v, a⟩ := p
      have hne : u ≠ v := fun he => h (by simp [keys, he])
      simp only [adjOf, if_neg hne]
      exact ih (fun hm => h (by simp [keys] at hm ⊢; exact .inr hm))

/-- The binding delivered by `adjOf` is a binding of the graph. -/
theorem mem_of_adjOf {g : GraphL V} {u : V} (h : u ∈ keys g) :
    (u, adjOf g u) ∈ g := by
  induction g with
  | nil => exact absurd h (List.not_mem_nil u)
  | cons p rest ih =>
      obtain ⟨v, a⟩ := p
      by_cases he : u = v
      · subst he
        simp [adjOf]
      · simp only [adjOf, if_neg he]
        have h' : u ∈ keys rest := by
          have hc : u ∈ v :: keys rest := h
          rcases List.mem_cons.mp hc with h1 | h1
          · exact absurd h1 he
          · exact h1
        exact List.mem_cons_of_mem _ (ih h')

/-- With non-negative weights, every weight delivered by `adjOf` is
non-negative. -/
theorem nonneg_adjOf {g : GraphL V} (h : NonnegWeights g) (u : V) :
    ∀ e ∈ adjOf g u, 0 ≤ e.2 := by
  intro e he
  by_cases hu : u ∈ keys g
  · exact h _ (mem_of_adjOf hu) e he
  · rw [adjOf_eq_nil_of_not_mem hu] at he
    exact absurd he (List.not_mem_nil e)

/-- In a closed graph, every neighbour delivered by `adjOf` is a key. -/
theorem closed_adjOf {g : GraphL V} (h : ClosedGraph g) (u : V) :
    ∀ e ∈ adjOf g u, e.1 ∈ keys g := by
  intro e he
  by_cases hu : u ∈ keys g
  · exact h _ (mem_of_adjOf hu) e he
  · rw [adjOf_eq_nil_of_not_mem hu] at he
    exact absurd he (List.not_mem_nil e)

/-! ## The heap's pop order -/

instance : IsTrans (Cost × V) pqLe where
  trans a b c hab hbc := by
    simp only [pqLe] at hab hbc ⊢
    rcases hab with h1 | ⟨h1, h2⟩ <;> rcases hbc with h3 | ⟨h3, h4⟩
    · exact .inl (h1.trans h3)
    · exact .inl (h3 ▸ h1)
    · exact .inl (h1 ▸ h3)
    · exact .inr ⟨h1.trans h3, h2.trans h4⟩

instance : IsTotal (Cost × V) pqLe where
  total a b := by
    simp only [pqLe]
    rcases lt_trichotomy a.1 b.1 with h | h | h
    · exact .inl (.inl h)
    · rcases le_total a.2 b.2 with h2 | h2
      · exact .inl (.inr ⟨h, h2⟩)
      · exact .inr (.inr ⟨h.symm, h2⟩)
    · exact .inr (.inl h)

/-- The pop order is a permutation of the pushed entries. -/
theorem popOrder_perm (g : GraphL V) (s : V) :
    (popOrder g s).Perm
      ((keys g).map (fun v => ((if v = s then (0 : Cost) else ⊤), v))) :=
  List.perm_insertionSort _ _

/-- Membership in the pop order: the entries are exactly the graph keys
paired with their pushed priorities. -/
theorem mem_popOrder {g : GraphL V} {s : V} {e : Cost × V} :
    e ∈ popOrder g s ↔
      e.2 ∈ keys g ∧ e.1 = (if e.2 = s then (0 : Cost) else ⊤) := by
  rw [(popOrder_perm g s).mem_iff, List.mem_map]
  constructor
  · rintro ⟨v, hv, rfl⟩
    exact ⟨hv, rfl⟩
  · rintro ⟨hv, he⟩
    exact ⟨e.2, hv, by rw [← he]⟩

/-- The pop order is sorted by the entry order. -/
theorem popOrder_sorted (g : GraphL V) (s : V) : (popOrder g s).Sorted pqLe :=
  List.sorted_insertionSort _ _

/-- When the source is a key, the first pop delivers the entry
`(0, source)`. -/
theorem popOrder_eq_cons {g : GraphL V} {s : V} (hs : s ∈ keys g) :
    ∃ rest, popOrder g s = (0, s) :: rest := by
  have hmem : ((0 : Cost), s) ∈ popOrder g s := by
    rw [mem_popOrder]
    exact ⟨hs, by simp⟩
  cases hpo : popOrder g s with
  | nil => rw [hpo] at hmem; exact absurd hmem (List.not_mem_nil _)
  | cons e rest =>
      refine ⟨rest, ?_⟩
      rw [hpo] at hmem
      rcases List.mem_cons.mp hmem with he | hr
      · rw [← he]
      · have hsorted := popOrder_sorted g s
        rw [hpo] at hsorted
        have hle : pqLe e (0, s) := (List.sorted_cons.mp hsorted).1 _ hr
        have heMem : e ∈ popOrder g s := by rw [hpo]; exact List.mem_cons_self e rest
        rw [mem_popOrder] at heMem
        by_cases hes : e.2 = s
        · have heq : e = (0, s) := by
            rcases e with ⟨c, v⟩
            simp only at hes
            subst hes
            have hc : c = 0 := by simpa using heMem.2
            rw [hc]
          rw [heq]
        · exfalso
          simp only [if_neg hes] at heMem
          rcases hle with hlt | ⟨heq, _⟩
          · rw [heMem.2] at hlt
            exact (not_top_lt hlt)
          · rw [heMem.2] at heq
            exact (by simp : ((⊤ : Cost) = 0) → False) heq

/-- C7: amended.  When the source equals the target and is a key of the
graph, `dijkstra.py` short-circuits before its loop but returns the pair
`(None, 0)` — not the single-vertex path — while `dijkstra_pq.py` pops the
source, breaks before relaxing anything, and returns `([s], 0)`. -/
theorem c7_theorem (g : GraphL V) (s : V) (hs : s ∈ keys g) :
    linDijkstra g s (some s) = .noneZero ∧
    pqDijkstra g s (some s) = .pathCost [s] 0 := by
  constructor
  · simp [linDijkstra, hs]
  · obtain ⟨rest, hpo⟩ := popOrder_eq_cons hs
    simp only [pqDijkstra, hs, not_true, or_self, if_false, hpo,
      pqLoop_cons_target, or_false]
    simp [pqFinish, pqBacktrack, pqInit]

/-- C7 witness: the instance on the first sample graph at `s`. -/
theorem c7_witness :
    linDijkstra sampleG1 5 (some 5) = .noneZero ∧
    pqDijkstra sampleG1 5 (some 5) = .pathCost [5] 0 :=
  c7_theorem sampleG1 5 (by decide)

/-- Heap-variant relaxation over neighbours that are all keys: either a
negative weight occurs in the list and `ValueError` is raised, or all
weights are non-negative and relaxation completes. -/
theorem pqRelax_cases_closed {g : GraphL V} (u : V) :
    ∀ (l : AdjList V), (∀ e ∈ l, e.1 ∈ keys g) → ∀ st : PqSt V,
      ((∃ e ∈ l, e.2 < 0) ∧ pqRelax g u l st = .valErr) ∨
      ((∀ e ∈ l, 0 ≤ e.2) ∧ ∃ st', pqRelax g u l st = .fin st') := by
  intro l
  induction l with
  | nil => exact fun _ st => .inr ⟨fun e he => absurd he (List.not_mem_nil e), st, rfl⟩
  | cons e rest ih =>
      intro hcl st
      obtain ⟨v, w⟩ := e
      by_cases hw : w < 0
      · exact .inl ⟨⟨(v, w), List.mem_cons_self _ _, hw⟩, by simp [pqRelax, hw]⟩
      · have hv : v ∈ keys g := hcl (v, w) (List.mem_cons_self _ _)
        have htail : ∀ e ∈ rest, e.1 ∈ keys g :=
          fun e he => hcl e (List.mem_cons_of_mem _ he)
        by_cases himp : st.dist u + (w : Cost) < st.dist v
        · rcases ih htail
              { dist := fun x => if x = v then st.dist u + (w : Cost) else st.dist x
                prev := fun x => if x = v then some u else st.prev x } with
            ⟨⟨e', he', hneg⟩, hval⟩ | ⟨hnn, st', hfin⟩
          · exact .inl ⟨⟨e', List.mem_cons_of_mem _ he', hneg⟩,
              by simp only [pqRelax, if_neg hw, if_pos hv, if_pos himp]; exact hval⟩
          · refine .inr ⟨?_, st', ?_⟩
            · intro e' he'
              rcases List.mem_cons.mp he' with h1 | h1
              · rw [h1]; exact not_lt.mp hw
              · exact hnn e' h1
            · simp only [pqRelax, if_neg hw, if_pos hv, if_pos himp]; exact hfin
        · rcases ih htail st with ⟨⟨e', he', hneg⟩, hval⟩ | ⟨hnn, st', hfin⟩
          · exact .inl ⟨⟨e', List.mem_cons_of_mem _ he', hneg⟩,
              by simp only [pqRelax, if_neg hw, if_pos hv, if_neg himp]; exact hval⟩
          · refine .inr ⟨?_, st', ?_⟩
            · intro e' he'
              rcases List.mem_cons.mp he' with h1 | h1
              · rw [h1]; exact not_lt.mp hw
              · exact hnn e' h1
            · simp only [pqRelax, if_neg hw, if_pos hv, if_neg himp]; exact hfin

/-- On a closed graph, the no-target heap loop raises `ValueError` exactly
when some entry it processes has a negative out-edge. -/
theorem pqLoop_valErr_iff_closed {g : GraphL V} (hC : ClosedGraph g) :
    ∀ (l : List (Cost × V)) (st : PqSt V),
      (pqLoop g none l st = .valErr ↔ ∃ p ∈ l, ∃ e ∈ adjOf g p.2, e.2 < 0) := by
  intro l
  induction l with
  | nil =>
      intro st
      simp only [pqLoop]
      constructor
      · intro h; exact absurd h (fun h => PqOut.noConfusion h)
      · rintro ⟨p, hp, _⟩; exact absurd hp (List.not_mem_nil p)
  | cons p rest ih =>
      intro st
      obtain ⟨c, u⟩ := p
      have hne : (none : Option V) ≠ some u := fun h => Option.noConfusion h
      simp only [pqLoop, if_neg hne]
      rcases pqRelax_cases_closed u (adjOf g u) (closed_adjOf hC u) st with
        ⟨⟨e, he, hneg⟩, hval⟩ | ⟨hnn, st', hfin⟩
      · rw [hval]
        constructor
        · intro _; exact ⟨(c, u), List.mem_cons_self _ _, e, he, hneg⟩
        · intro _; rfl
      · rw [hfin, ih st']
        constructor
        · rintro ⟨q, hq, e, he, hneg⟩
          exact ⟨q, List.mem_cons_of_mem _ hq, e, he, hneg⟩
        · rintro ⟨q, hq, e, he, hneg⟩
          rcases List.mem_cons.mp hq with h1 | h1
          · subst h1
            exact absurd hneg (not_lt.mpr (hnn e he))
          · exact ⟨q, h1, e, he, hneg⟩

/-- C6: amended.  On a closed graph, the no-target heap call raises
`ValueError` exactly when the graph contains a negative out-edge (the check
runs before any skipping, for every popped vertex).  The linear variant
checks an edge's weight only when the edge's head is still unvisited, so a
negative edge into an already visited vertex is skipped silently: on
`negGraph` (where the negative edge `b → a` is reachable from the source
`a`) it returns its tables normally. -/
theorem c6_theorem (g : GraphL V) (s : V) (hC : ClosedGraph g) :
    (pqDijkstra g s none = .valueError ↔ ∃ u ∈ keys g, ∃ e ∈ adjOf g u, e.2 < 0) ∧
    (tagOf (linDijkstra negGraph 0 none) = 0 ∧ lookupW negGraph 1 0 = some (-1) ∧
      IsPathTo negGraph 0 [1] 1 1 ∧ tagOf (pqDijkstra negGraph 0 none) = 5) := by
  constructor
  · have hloop := pqLoop_valErr_iff_closed hC (popOrder g s) (pqInit g s)
    constructor
    · intro h
      simp only [pqDijkstra] at h
      rcases hcase : pqLoop g none (popOrder g s) (pqInit g s) with st | _ | _
      · rw [hcase] at h
        simp only [pqFinish] at h
        exact absurd h (fun h => DijkstraResult.noConfusion h)
      · obtain ⟨q, hq, e, he, hneg⟩ := hloop.mp hcase
        have hq2 : q.2 ∈ keys g := (mem_popOrder.mp hq).1
        exact ⟨q.2, hq2, e, he, hneg⟩
      · rw [hcase] at h
        exact absurd h (fun h => DijkstraResult.noConfusion h)
    · rintro ⟨u, hu, e, he, hneg⟩
      have hmem : ((if u = s then (0 : Cost) else ⊤), u) ∈ popOrder g s := by
        rw [mem_popOrder]
        exact ⟨hu, rfl⟩
      have : pqLoop g none (popOrder g s) (pqInit g s) = .valErr :=
        hloop.mpr ⟨_, hmem, e, he, hneg⟩
      simp [pqDijkstra, this]
  · exact ⟨by decide, by decide, by decide, by decide⟩

/-- C6 witness: the heap variant on `negGraph` (negative edge present)
raises `ValueError`. -/
theorem c6_witness : pqDijkstra negGraph 0 none = .valueError :=
  (c6_theorem negGraph 0 (by decide)).1.mpr (by decide)

/-! ## Positions in a processing list -/

/-- Index of the first occurrence of `v` (length when absent). -/
def idxIn : List V → V → Nat
  | [], _ => 0
  | a :: l, v => if v = a then 0 else idxIn l v + 1

theorem idxIn_lt_length {l : List V} {v : V} (h : v ∈ l) : idxIn l v < l.length := by
  induction l with
  | nil => exact absurd h (List.not_mem_nil v)
  | cons a l ih =>
      by_cases hv : v = a
      · simp [idxIn, hv]
      · have : v ∈ l := (List.mem_cons.mp h).resolve_left hv
        simp only [idxIn, if_neg hv, List.length_cons]
        exact Nat.succ_lt_succ (ih this)

theorem idxIn_append_of_mem {l : List V} {v : V} (l' : List V) (h : v ∈ l) :
    idxIn (l ++ l') v = idxIn l v := by
  induction l with
  | nil => exact absurd h (List.not_mem_nil v)
  | cons a l ih =>
      by_cases hv : v = a
      · simp [idxIn, hv]
      · have : v ∈ l := (List.mem_cons.mp h).resolve_left hv
        simp only [List.cons_append, idxIn, if_neg hv, List.append_eq]
        rw [ih this]

theorem idxIn_append_self {l : List V} {v : V} (h : v ∉ l) :
    idxIn (l ++ [v]) v = l.length := by
  induction l with
  | nil => simp [idxIn]
  | cons a l ih =>
      have hv : v ≠ a := fun he => h (he ▸ List.mem_cons_self a l)
      have h' : v ∉ l := fun hm => h (List.mem_cons_of_mem _ hm)
      simp only [List.cons_append, idxIn, if_neg hv, List.length_cons, List.append_eq]
      rw [ih h']

/-! ## The strict measure that decreases along heap predecessor chains -/

/-- Strict lexicographic order on `(distance, snapshot, position)` triples. -/
def MeasureLt (a b : Cost × Cost × Nat) : Prop :=
  a.1 < b.1 ∨ (a.1 = b.1 ∧ (a.2.1 < b.2.1 ∨ (a.2.1 = b.2.1 ∧ a.2.2 < b.2.2)))

theorem measureLt_trans {a b c : Cost × Cost × Nat}
    (hab : MeasureLt a b) (hbc : MeasureLt b c) : MeasureLt a c := by
  rcases hab with h1 | ⟨h1, h2⟩ <;> rcases hbc with h3 | ⟨h3, h4⟩
  · exact .inl (h1.trans h3)
  · exact .inl (h3 ▸ h1)
  · exact .inl (h1 ▸ h3)
  · refine .inr ⟨h1.trans h3, ?_⟩
    rcases h2 with h2 | ⟨h2, h5⟩ <;> rcases h4 with h4 | ⟨h4, h6⟩
    · exact .inl (h2.trans h4)
    · exact .inl (h4 ▸ h2)
    · exact .inl (h2 ▸ h4)
    · exact .inr ⟨h2.trans h4, h5.trans h6⟩

theorem measureLt_irrefl (a : Cost × Cost × Nat) : ¬ MeasureLt a a := by
  rintro (h | ⟨_, h | ⟨_, h⟩⟩)
  · exact lt_irrefl _ h
  · exact lt_irrefl _ h
  · exact lt_irrefl _ h

/-! ## Loop invariant of the heap implementation

`done` is the list of vertices already popped and relaxed, in order;
`snap v` records the value `distance[v]` had at the moment `v` was popped. -/

structure PqInvS (g : GraphL V) (source : V) (done : List V) (snap : V → Cost)
    (st : PqSt V) : Prop where
  doneKeys : ∀ v ∈ done, v ∈ keys g
  doneNodup : done.Nodup
  distSnap : ∀ v ∈ done, st.dist v ≤ snap v
  nonnegDist : ∀ v, 0 ≤ st.dist v
  srcDist : st.dist source = 0
  srcPrev : st.prev source = none
  prevLink : ∀ v u, st.prev v = some u → ∃ w : Int, (v, w) ∈ adjOf g u ∧ 0 ≤ w ∧
      st.dist v = snap u + (w : Cost) ∧ u ∈ done
  prevFinite : ∀ v u, st.prev v = some u → st.dist v ≠ ⊤
  prevBefore : ∀ v u, st.prev v = some u → v ∈ done →
      st.dist v < snap v ∨ idxIn done u < idxIn done v
  distReach : ∀ v (d : Int), st.dist v = (d : Cost) → source ∈ keys g →
      Reaches g source v d
  prevNone : ∀ v, st.prev v = none → v = source ∨ st.dist v = ⊤

/-- The invariant holds initially (nothing popped, no snapshots taken). -/
theorem pqInv_init (g : GraphL V) (source : V) :
    PqInvS g source [] (fun _ => ⊤) (pqInit g source) := by
  refine ⟨?_, ?_, ?_, ?_, ?_, ?_, ?_, ?_, ?_, ?_, ?_⟩
  · intro v hv; exact absurd hv (List.not_mem_nil v)
  · exact List.nodup_nil
  · intro v hv; exact absurd hv (List.not_mem_nil v)
  · intro v
    simp only [pqInit]
    by_cases hv : v = source
    · simp [hv]
    · simp [hv]
  · simp [pqInit]
  · rfl
  · intro v u h; exact absurd h (fun h => Option.noConfusion h)
  · intro v u h; exact absurd h (fun h => Option.noConfusion h)
  · intro v u h; exact absurd h (fun h => Option.noConfusion h)
  · intro v d hd hsrc
    simp only [pqInit] at hd
    by_cases hv : v = source
    · subst hv
      rw [if_pos rfl] at hd
      have : d = 0 := by exact_mod_cast hd.symm
      subst this
      exact ReachesVia.refl v hsrc
    · rw [if_neg hv] at hd
      exact absurd hd.symm (WithTop.coe_ne_top)
  · intro v _
    by_cases hv : v = source
    · exact .inl hv
    · exact .inr (by simp [pqInit, hv])

/-! ## Cost arithmetic helpers -/

theorem cost_coe_nonneg {w : Int} (h : 0 ≤ w) : (0 : Cost) ≤ (w : Cost) := by
  exact_mod_cast h

theorem cost_add_finite {a : Cost} {w d : Int} (h : a + (w : Cost) = (d : Cost)) :
    ∃ b : Int, a = (b : Cost) ∧ b + w = d := by
  induction a using WithTop.recTopCoe with
  | top => rw [top_add] at h; exact absurd h.symm WithTop.coe_ne_top
  | coe b =>
      refine ⟨b, rfl, ?_⟩
      exact_mod_cast h

/-- One relaxation pass of the heap variant preserves the loop invariant
(the popped vertex `u` is already recorded in `done`, with its snapshot
equal to its current distance, which the pass cannot change). -/
theorem pqRelax_inv {g : GraphL V} {source u : V} {done : List V} {snap : V → Cost}
    (hu : u ∈ done) :
    ∀ (l : AdjList V) (st st' : PqSt V), (∀ e ∈ l, e ∈ adjOf g u) →
      PqInvS g source done snap st → st.dist u = snap u →
      pqRelax g u l st = .fin st' →
      PqInvS g source done snap st' ∧ st'.dist u = snap u := by
  intro l
  induction l with
  | nil =>
      intro st st' _ hInv hsnap hrel
      simp only [pqRelax] at hrel
      cases hrel
      exact ⟨hInv, hsnap⟩
  | cons e rest ih =>
      intro st st' hsub hInv hsnap hrel
      obtain ⟨v, w⟩ := e
      by_cases hw : w < 0
      · rw [show pqRelax g u ((v, w) :: rest) st = .valErr by
          simp [pqRelax, hw]] at hrel
        exact absurd hrel (fun h => PqOut.noConfusion h)
      · have hwn : (0 : Int) ≤ w := not_lt.mp hw
        by_cases hvk : v ∈ keys g
        · simp only [pqRelax, if_neg hw, if_pos hvk] at hrel
          by_cases himp : st.dist u + (w : Cost) < st.dist v
          · rw [if_pos himp] at hrel
            have hvne : v ≠ u := by
              intro he
              subst he
              have hle : st.dist v ≤ st.dist v + (w : Cost) :=
                le_add_of_nonneg_right (cost_coe_nonneg hwn)
              exact absurd himp (not_lt.mpr hle)
            have hvns : v ≠ source := by
              intro he
              subst he
              have h0 : (0 : Cost) ≤ st.dist u + (w : Cost) :=
                add_nonneg (hInv.nonnegDist u) (cost_coe_nonneg hwn)
              rw [hInv.srcDist] at himp
              exact absurd himp (not_lt.mpr h0)
            have hInv1 : PqInvS g source done snap
                { dist := fun x => if x = v then st.dist u + (w : Cost) else st.dist x
                  prev := fun x => if x = v then some u else st.prev x } := by
              refine ⟨hInv.doneKeys, hInv.doneNodup, ?_, ?_, ?_, ?_, ?_, ?_, ?_, ?_, ?_⟩
              · intro x hx
                by_cases hxv : x = v
                · subst hxv
                  simp only [if_pos rfl]
                  exact le_trans (le_of_lt himp) (hInv.distSnap x hx)
                · simp only [if_neg hxv]
                  exact hInv.distSnap x hx
              · intro x
                by_cases hxv : x = v
                · subst hxv
                  simp only [if_pos rfl]
                  exact add_nonneg (hInv.nonnegDist u) (cost_coe_nonneg hwn)
                · simp only [if_neg hxv]
                  exact hInv.nonnegDist x
              · simp only [if_neg (Ne.symm hvns)]
                exact hInv.srcDist
              · simp only [if_neg (Ne.symm hvns)]
                exact hInv.srcPrev
              · intro x u0 hx
                by_cases hxv : x = v
                · subst hxv
                  simp only [if_pos rfl] at hx ⊢
                  cases hx
                  exact ⟨w, hsub (x, w) (List.mem_cons_self _ _), hwn,
                    by simp [hsnap], hu⟩
                · simp only [if_neg hxv] at hx ⊢
                  obtain ⟨w', hww, hw0, hdd, hdone⟩ := hInv.prevLink x u0 hx
                  exact ⟨w', hww, hw0, hdd, hdone⟩
              · intro x u0 hx
                by_cases hxv : x = v
                · subst hxv
                  simp only [if_pos rfl]
                  exact ne_top_of_lt himp
                · simp only [if_neg hxv] at hx ⊢
                  exact hInv.prevFinite x u0 hx
              · intro x u0 hx hxd
                by_cases hxv : x = v
                · subst hxv
                  simp only [if_pos rfl] at hx ⊢
                  left
                  exact lt_of_lt_of_le himp (hInv.distSnap x hxd)
                · simp only [if_neg hxv] at hx ⊢
                  exact hInv.prevBefore x u0 hx hxd
              · intro x d hxd hsrc
                by_cases hxv : x = v
                · subst hxv
                  simp only [if_pos rfl] at hxd
                  obtain ⟨du, hdu, hsum⟩ := cost_add_finite hxd
                  have hr := hInv.distReach u du hdu hsrc
                  have := ReachesVia.step hr trivial (hsub (x, w) (List.mem_cons_self _ _))
                  rwa [hsum] at this
                · simp only [if_neg hxv] at hxd
                  exact hInv.distReach x d hxd hsrc
              · intro x hx
                by_cases hxv : x = v
                · subst hxv
                  simp only [if_pos rfl] at hx
                  exact absurd hx (fun h => Option.noConfusion h)
                · simp only [if_neg hxv] at hx ⊢
                  rcases hInv.prevNone x hx with h | h
                  · exact .inl h
                  · exact .inr h
            have hsnap1 : (if u = v then st.dist u + (w : Cost) else st.dist u) = snap u := by
              rw [if_neg (fun h => hvne h.symm)]
              exact hsnap
            exact ih _ st' (fun e he => hsub e (List.mem_cons_of_mem _ he)) hInv1 hsnap1 hrel
          · rw [if_neg himp] at hrel
            exact ih st st' (fun e he => hsub e (List.mem_cons_of_mem _ he)) hInv hsnap hrel
        · rw [show pqRelax g u ((v, w) :: rest) st = .keyErr by
            simp [pqRelax, hw, hvk]] at hrel
          exact absurd hrel (fun h => PqOut.noConfusion h)

/-- Recording a freshly popped vertex in `done` (snapshotting its current
distance) preserves the invariant. -/
theorem pqInv_push {g : GraphL V} {source u : V} {done : List V} {snap : V → Cost}
    {st : PqSt V} (hInv : PqInvS g source done snap st)
    (hk : u ∈ keys g) (hfresh : u ∉ done) :
    PqInvS g source (done ++ [u]) (fun x => if x = u then st.dist u else snap x) st := by
  refine ⟨?_, ?_, ?_, hInv.nonnegDist, hInv.srcDist, hInv.srcPrev, ?_,
    hInv.prevFinite, ?_, hInv.distReach, hInv.prevNone⟩
  · intro v hv
    rcases List.mem_append.mp hv with h | h
    · exact hInv.doneKeys v h
    · rw [List.mem_singleton.mp h]; exact hk
  · refine List.Nodup.append hInv.doneNodup (List.nodup_singleton u) ?_
    intro a ha hb
    rw [List.mem_singleton] at hb
    exact hfresh (hb ▸ ha)
  · intro v hv
    rcases List.mem_append.mp hv with h | h
    · have hne : v ≠ u := fun he => hfresh (he ▸ h)
      rw [if_neg hne]
      exact hInv.distSnap v h
    · rw [List.mem_singleton.mp h, if_pos rfl]
  · intro v u0 hp
    obtain ⟨w, hw, h0, hd, hdone⟩ := hInv.prevLink v u0 hp
    have hne : u0 ≠ u := fun he => hfresh (he ▸ hdone)
    exact ⟨w, hw, h0, by rw [if_neg hne]; exact hd, List.mem_append_left _ hdone⟩
  · intro v u0 hp hv
    obtain ⟨w, hw, h0, hd, hdone⟩ := hInv.prevLink v u0 hp
    rcases List.mem_append.mp hv with h | h
    · have hne : v ≠ u := fun he => hfresh (he ▸ h)
      rcases hInv.prevBefore v u0 hp h with hlt | hidx
      · left
        rw [if_neg hne]
        exact hlt
      · right
        rw [idxIn_append_of_mem _ hdone, idxIn_append_of_mem _ h]
        exact hidx
    · have hveq : v = u := List.mem_singleton.mp h
      subst hveq
      right
      rw [idxIn_append_of_mem _ hdone, idxIn_append_self hfresh]
      exact idxIn_lt_length hdone

/-- Main induction over the heap loop: starting from an invariant state and
fresh entries, every normal exit satisfies the invariant for some processed
list and snapshot. -/
theorem pqLoop_inv {g : GraphL V} {source : V} (t : Option V) :
    ∀ (l : List (Cost × V)) (done : List V) (snap : V → Cost) (st : PqSt V),
      PqInvS g source done snap st →
      (∀ e ∈ l, e.2 ∈ keys g) → (∀ e ∈ l, e.2 ∉ done) → (l.map Prod.snd).Nodup →
      ∀ stF, pqLoop g t l st = .fin stF →
        ∃ done' snap', PqInvS g source done' snap' stF := by
  intro l
  induction l with
  | nil =>
      intro done snap st hInv _ _ _ stF hF
      simp only [pqLoop] at hF
      cases hF
      exact ⟨done, snap, hInv⟩
  | cons e rest ih =>
      intro done snap st hInv hkeys hfresh hnd stF hF
      obtain ⟨c, u⟩ := e
      simp only [pqLoop] at hF
      by_cases ht : t = some u
      · rw [if_pos ht] at hF
        cases hF
        exact ⟨done, snap, hInv⟩
      · rw [if_neg ht] at hF
        have hk : u ∈ keys g := hkeys (c, u) (List.mem_cons_self _ _)
        have hfr : u ∉ done := hfresh (c, u) (List.mem_cons_self _ _)
        have hInv1 := pqInv_push hInv hk hfr
        cases hrel : pqRelax g u (adjOf g u) st with
        | valErr =>
            rw [hrel] at hF
            exact absurd hF (fun h => PqOut.noConfusion h)
        | keyErr =>
            rw [hrel] at hF
            exact absurd hF (fun h => PqOut.noConfusion h)
        | fin st1 =>
            rw [hrel] at hF
            have humem : u ∈ done ++ [u] :=
              List.mem_append_right _ (List.mem_singleton_self u)
            obtain ⟨hInv2, _⟩ := pqRelax_inv humem (adjOf g u) st st1
              (fun e he => he) hInv1 (by simp) hrel
            have hnd' : (rest.map Prod.snd).Nodup := (List.nodup_cons.mp hnd).2
            have hufr : u ∉ rest.map Prod.snd := (List.nodup_cons.mp hnd).1
            refine ih (done ++ [u]) _ st1 hInv2 ?_ ?_ hnd' stF hF
            · intro e he
              exact hkeys e (List.mem_cons_of_mem _ he)
            · intro e he hmem
              rcases List.mem_append.mp hmem with h | h
              · exact hfresh e (List.mem_cons_of_mem _ he) h
              · have : e.2 = u := List.mem_singleton.mp h
                exact hufr (this ▸ List.mem_map_of_mem Prod.snd he)

/-! ## Path assembly lemmas -/

theorem find?_eq_of_nodup_mem {l : AdjList V} {v : V} {w : Int}
    (hnd : (l.map Prod.fst).Nodup) (hm : (v, w) ∈ l) :
    l.find? (fun e => e.1 = v) = some (v, w) := by
  induction l with
  | nil => exact absurd hm (List.not_mem_nil _)
  | cons e rest ih =>
      rcases List.mem_cons.mp hm with he | hm'
      · subst he
        exact List.find?_cons_of_pos _ (by simp)
      · have hnd' : (rest.map Prod.fst).Nodup := (List.nodup_cons.mp hnd).2
        have hne : ¬ (e.1 = v) := by
          intro he1
          have hvm : v ∈ rest.map Prod.fst := List.mem_map_of_mem Prod.fst hm'
          rw [← he1] at hvm
          exact (List.nodup_cons.mp hnd).1 hvm
        rw [List.find?_cons_of_neg _ (by simpa using hne)]
        exact ih hnd' hm'

/-- With duplicate-free adjacency keys, membership determines the looked-up
weight. -/
theorem lookupW_eq_of_mem {g : GraphL V} (hWF : WFGraph g) {u v : V} {w : Int}
    (hm : (v, w) ∈ adjOf g u) : lookupW g u v = some w := by
  have hnd : ((adjOf g u).map Prod.fst).Nodup := by
    by_cases hu : u ∈ keys g
    · exact hWF.2 (u, adjOf g u) (mem_of_adjOf hu)
    · rw [adjOf_eq_nil_of_not_mem hu]
      exact List.nodup_nil
  rw [lookupW, find?_eq_of_nodup_mem hnd hm]
  rfl

/-- Extending a walk by one edge out of its endpoint. -/
theorem pathWeight_snoc {g : GraphL V} :
    ∀ {p : List V} {s u v : V} {c w : Int},
      pathWeight g s p = some c → (s :: p).getLast? = some u →
      lookupW g u v = some w →
      pathWeight g s (p ++ [v]) = some (c + w) := by
  intro p
  induction p with
  | nil =>
      intro s u v c w hp hl hw
      have hsu : s = u := by simpa using hl
      subst hsu
      have hc : c = 0 := by
        simpa [pathWeight] using hp.symm
      subst hc
      simp [pathWeight, hw]
  | cons b rest ih =>
      intro s u v c w hp hl hw
      simp only [pathWeight] at hp
      cases hwb : lookupW g s b with
      | none => rw [hwb] at hp; exact absurd hp (fun h => Option.noConfusion h)
      | some w1 =>
          rw [hwb] at hp
          cases hrest : pathWeight g b rest with
          | none => rw [hrest] at hp; exact absurd hp (fun h => Option.noConfusion h)
          | some c1 =>
              rw [hrest] at hp
              simp only [Option.map_some] at hp
              have hc : w1 + c1 = c := by exact_mod_cast Option.some.inj hp
              have hl' : (b :: rest).getLast? = some u := by
                rwa [List.getLast?_cons_cons] at hl
              have := ih hrest hl' hw
              simp only [List.cons_append, pathWeight, hwb, List.append_eq, this,
                Option.map_some]
              have harith : w1 + (c1 + w) = c + w := by omega
              show some (w1 + (c1 + w)) = some (c + w)
              rw [harith]

/-- The appended vertex is the new endpoint. -/
theorem getLast?_cons_snoc {s v : V} (p : List V) :
    (s :: (p ++ [v])).getLast? = some v := by
  rw [show s :: (p ++ [v]) = (s :: p) ++ [v] by simp]
  exact List.getLast?_concat _

/-! ## Strict decrease of the measure along heap predecessor links -/

theorem pq_link_measure {g : GraphL V} {source : V} {done : List V} {snap : V → Cost}
    {st : PqSt V} (hInv : PqInvS g source done snap st) {v u : V}
    (hp : st.prev v = some u) (hv : v ∈ done) :
    MeasureLt (st.dist u, snap u, idxIn done u) (st.dist v, snap v, idxIn done v) := by
  obtain ⟨w, hw, h0, hd, hu⟩ := hInv.prevLink v u hp
  have hdu : st.dist u ≤ snap u := hInv.distSnap u hu
  have hle : st.dist u ≤ st.dist v := by
    rw [hd]
    exact le_trans hdu (le_add_of_nonneg_right (cost_coe_nonneg h0))
  rcases lt_or_eq_of_le hle with hlt | heq
  · exact .inl hlt
  · have hfin : st.dist v ≠ ⊤ := hInv.prevFinite v u hp
    have hsnapfin : snap u ≠ ⊤ := by
      intro htop
      rw [htop, top_add] at hd
      exact hfin hd
    obtain ⟨su, hsu⟩ := WithTop.ne_top_iff_exists.mp hsnapfin
    have hw0 : w = 0 := by
      have h1 : snap u + (w : Cost) ≤ snap u := by
        rw [← hd, ← heq]
        exact hdu
      rw [← hsu] at h1
      have h2 : su + w ≤ su := by exact_mod_cast h1
      omega
    have heq2 : st.dist u = snap u := by
      rw [heq, hd, hw0]
      simp
    have hsnle : snap u ≤ snap v := by
      rw [← heq2, heq]
      exact hInv.distSnap v hv
    rcases lt_or_eq_of_le hsnle with h2 | h2
    · exact .inr ⟨heq, .inl h2⟩
    · rcases hInv.prevBefore v u hp hv with h3 | h3
      · exfalso
        have : st.dist v = snap v := by rw [← heq, heq2, h2]
        rw [this] at h3
        exact lt_irrefl _ h3
      · exact .inr ⟨heq, .inr ⟨h2, h3⟩⟩

instance (a b : Cost × Cost × Nat) : Decidable (MeasureLt a b) := by
  unfold MeasureLt
  infer_instance

/-- Number of processed vertices strictly below `v` in the measure. -/
def pqRank (done : List V) (snap : V → Cost) (st : PqSt V) (v : V) : Nat :=
  (done.toFinset.filter
    (fun u => MeasureLt (st.dist u, snap u, idxIn done u)
      (st.dist v, snap v, idxIn done v))).card

/-- The rank strictly decreases along a predecessor link between processed
vertices. -/
theorem pqRank_lt {g : GraphL V} {source : V} {done : List V} {snap : V → Cost}
    {st : PqSt V} (hInv : PqInvS g source done snap st) {v u : V}
    (hp : st.prev v = some u) (hv : v ∈ done) (hu : u ∈ done) :
    pqRank done snap st u < pqRank done snap st v := by
  have hlt := pq_link_measure hInv hp hv
  apply Finset.card_lt_card
  rw [Finset.ssubset_def]
  constructor
  · intro x hx
    rw [Finset.mem_filter] at hx ⊢
    exact ⟨hx.1, measureLt_trans hx.2 hlt⟩
  · intro hsub
    have hmem : u ∈ done.toFinset.filter
        (fun x => MeasureLt (st.dist x, snap x, idxIn done x)
          (st.dist v, snap v, idxIn done v)) :=
      Finset.mem_filter.mpr ⟨List.mem_toFinset.mpr hu, hlt⟩
    have hirr := hsub hmem
    rw [Finset.mem_filter] at hirr
    exact measureLt_irrefl _ hirr.2

/-- Ranks of processed vertices are below the number of processed
vertices. -/
theorem pqRank_lt_length {done : List V} (hnd : done.Nodup) (snap : V → Cost)
    (st : PqSt V) {u : V} (hu : u ∈ done) :
    pqRank done snap st u < done.length := by
  have h1 : done.toFinset.filter
      (fun x => MeasureLt (st.dist x, snap x, idxIn done x)
        (st.dist u, snap u, idxIn done u)) ⊆ done.toFinset.erase u := by
    intro x hx
    rw [Finset.mem_filter] at hx
    rw [Finset.mem_erase]
    refine ⟨?_, hx.1⟩
    rintro rfl
    exact measureLt_irrefl _ hx.2
  calc pqRank done snap st u ≤ (done.toFinset.erase u).card := Finset.card_le_card h1
    _ < done.toFinset.card := Finset.card_erase_lt_of_mem (List.mem_toFinset.mpr hu)
    _ ≤ done.length := List.toFinset_card_le done

/-- Backtracking from a processed vertex of finite distance terminates at
the source, building a genuine walk of the graph. -/
theorem pqBacktrack_ok {g : GraphL V} {source : V} {done : List V} {snap : V → Cost}
    {st : PqSt V} (hInv : PqInvS g source done snap st) (hWF : WFGraph g) :
    ∀ (n : Nat) (v : V) (acc : List V) (fuel : Nat),
      v ∈ done → pqRank done snap st v ≤ n → n < fuel → st.dist v ≠ ⊤ →
      ∃ (p : List V) (c : Int),
        pqBacktrack st.prev fuel (some v) acc = .ok ((source :: p) ++ acc) ∧
        IsPathTo g source p v c := by
  intro n
  induction n with
  | zero =>
      intro v acc fuel hv hrank hfuel hfin
      obtain ⟨f, rfl⟩ : ∃ f, fuel = f + 1 := ⟨fuel - 1, by omega⟩
      cases hp : st.prev v with
      | none =>
          have hvs : v = source := (hInv.prevNone v hp).resolve_right hfin
          subst hvs
          exact ⟨[], 0, by simp [pqBacktrack, hp], by simp [pathWeight], by simp⟩
      | some u =>
          exfalso
          obtain ⟨w, hw, h0, hd, hu⟩ := hInv.prevLink v u hp
          have := pqRank_lt hInv hp hv hu
          omega
  | succ n ihn =>
      intro v acc fuel hv hrank hfuel hfin
      obtain ⟨f, rfl⟩ : ∃ f, fuel = f + 1 := ⟨fuel - 1, by omega⟩
      cases hp : st.prev v with
      | none =>
          have hvs : v = source := (hInv.prevNone v hp).resolve_right hfin
          subst hvs
          exact ⟨[], 0, by simp [pqBacktrack, hp], by simp [pathWeight], by simp⟩
      | some u =>
          obtain ⟨w, hw, h0, hd, hu⟩ := hInv.prevLink v u hp
          have hfinu : st.dist u ≠ ⊤ := by
            intro htop
            have hsnap : snap u = ⊤ := top_le_iff.mp (htop ▸ hInv.distSnap u hu)
            rw [hsnap, top_add] at hd
            exact hfin hd
          have hranklt := pqRank_lt hInv hp hv hu
          obtain ⟨p, c, hok, hpath⟩ := ihn u (v :: acc) f hu (by omega) (by omega) hfinu
          refine ⟨p ++ [v], c + w, ?_, ?_, ?_⟩
          · simp only [pqBacktrack, hp]
            rw [hok]
            congr 1
            simp
          · exact pathWeight_snoc hpath.1 hpath.2 (lookupW_eq_of_mem hWF hw)
          · exact getLast?_cons_snoc p

/-- A duplicate-free list contained in another list is no longer than it. -/
theorem length_le_of_nodup_subset {l₁ l₂ : List V} (h1 : l₁.Nodup)
    (hsub : ∀ x ∈ l₁, x ∈ l₂) : l₁.length ≤ l₂.length := by
  calc l₁.length = l₁.toFinset.card := (List.toFinset_card_of_nodup h1).symm
    _ ≤ l₂.toFinset.card := Finset.card_le_card
        (fun x hx => List.mem_toFinset.mpr (hsub x (List.mem_toFinset.mp hx)))
    _ ≤ l₂.length := List.toFinset_card_le l₂

/-- Every normal exit of the full heap run satisfies the invariant. -/
theorem pqRun_inv {g : GraphL V} {s : V} (hWF : WFGraph g) (t : Option V) {stF : PqSt V}
    (hF : pqLoop g t (popOrder g s) (pqInit g s) = .fin stF) :
    ∃ done snap, PqInvS g s done snap stF := by
  have hsnd : ((popOrder g s).map Prod.snd).Perm (keys g) := by
    have hperm := (popOrder_perm g s).map Prod.snd
    rwa [List.map_map,
      show Prod.snd ∘ (fun v => ((if v = s then (0 : Cost) else ⊤), v)) = id from rfl,
      List.map_id] at hperm
  refine pqLoop_inv t (popOrder g s) [] (fun _ => ⊤) (pqInit g s) (pqInv_init g s)
    ?_ ?_ ?_ stF hF
  · intro e he
    exact (mem_popOrder.mp he).1
  · intro e _ h
    exact absurd h (List.not_mem_nil _)
  · exact hsnd.nodup_iff.mpr hWF.1

/-- With a closed graph and non-negative weights the heap loop cannot
raise. -/
theorem pqLoop_fin_of_valid {g : GraphL V} (hC : ClosedGraph g) (hN : NonnegWeights g)
    (t : Option V) : ∀ (l : List (Cost × V)) (st : PqSt V),
      ∃ stF, pqLoop g t l st = .fin stF := by
  intro l
  induction l with
  | nil => exact fun st => ⟨st, rfl⟩
  | cons e rest ih =>
      intro st
      obtain ⟨c, u⟩ := e
      by_cases ht : t = some u
      · exact ⟨st, by simp [pqLoop, ht]⟩
      · rcases pqRelax_cases_closed u (adjOf g u) (closed_adjOf hC u) st with
          ⟨⟨e', he', hneg⟩, _⟩ | ⟨_, st', hfin⟩
        · exact absurd hneg (not_lt.mpr (nonneg_adjOf hN u e' he'))
        · obtain ⟨stF, hF⟩ := ih st'
          exact ⟨stF, by simp only [pqLoop, if_neg ht, hfin]; exact hF⟩

/-- Full backtrack from a finite-distance target after a normal heap run:
the built list is a genuine walk from the source to the target. -/
theorem pqBacktrack_full {g : GraphL V} {source : V} {done : List V} {snap : V → Cost}
    {st : PqSt V} (hInv : PqInvS g source done snap st) (hWF : WFGraph g) {t : V}
    (hfin : st.dist t ≠ ⊤) :
    ∃ p c, pqBacktrack st.prev ((keys g).length + 1) (some t) [] =
        .ok (source :: p) ∧ IsPathTo g source p t c := by
  have hdl : done.length ≤ (keys g).length :=
    length_le_of_nodup_subset hInv.doneNodup hInv.doneKeys
  cases hp : st.prev t with
  | none =>
      have hts : t = source := (hInv.prevNone t hp).resolve_right hfin
      subst hts
      exact ⟨[], 0, by simp [pqBacktrack, hp], by simp [pathWeight], by simp⟩
  | some u =>
      obtain ⟨w, hw, h0, hd, hu⟩ := hInv.prevLink t u hp
      have hfinu : st.dist u ≠ ⊤ := by
        intro htop
        have hsnap : snap u = ⊤ := top_le_iff.mp (htop ▸ hInv.distSnap u hu)
        rw [hsnap, top_add] at hd
        exact hfin hd
      have hrank : pqRank done snap st u < done.length :=
        pqRank_lt_length hInv.doneNodup snap st hu
      obtain ⟨p, c, hok, hpath⟩ := pqBacktrack_ok hInv hWF (pqRank done snap st u) u [t]
        (keys g).length hu le_rfl (by omega) hfinu
      refine ⟨p ++ [t], c + w, ?_, ?_, ?_⟩
      · simp only [pqBacktrack, hp]
        rw [hok]
        rfl
      · exact pathWeight_snoc hpath.1 hpath.2 (lookupW_eq_of_mem hWF hw)
      · exact getLast?_cons_snoc p

/-- Backtrack from a target stuck at infinity: the predecessor entry is
absent and the built path is the single vertex `[t]`. -/
theorem pqBacktrack_top {g : GraphL V} {source : V} {done : List V} {snap : V → Cost}
    {st : PqSt V} (hInv : PqInvS g source done snap st) {t : V}
    (htop : st.dist t = ⊤) :
    pqBacktrack st.prev ((keys g).length + 1) (some t) [] = .ok [t] := by
  cases hp : st.prev t with
  | none => simp [pqBacktrack, hp]
  | some u => exact absurd htop (hInv.prevFinite t u hp)

/-- The heap implementation terminates on every input over a well-formed
graph: no run reaches the fuel marker. -/
theorem pqDijkstra_ne_diverge (g : GraphL V) (s : V) (t : Option V) (hWF : WFGraph g) :
    pqDijkstra g s t ≠ .diverge := by
  cases t with
  | none =>
      intro h
      simp only [pqDijkstra] at h
      rcases hcase : pqLoop g none (popOrder g s) (pqInit g s) with stF | _ | _ <;>
        rw [hcase] at h
      · simp only [pqFinish] at h
        exact DijkstraResult.noConfusion h
      · exact DijkstraResult.noConfusion h
      · exact DijkstraResult.noConfusion h
  | some tv =>
      intro h
      simp only [pqDijkstra] at h
      by_cases hg : s ∉ keys g ∨ tv ∉ keys g
      · rw [if_pos hg] at h
        exact DijkstraResult.noConfusion h
      · rw [if_neg hg] at h
        rcases hcase : pqLoop g (some tv) (popOrder g s) (pqInit g s) with stF | _ | _ <;>
          rw [hcase] at h
        · obtain ⟨done, snap, hInv⟩ := pqRun_inv hWF (some tv) hcase
          simp only [pqFinish] at h
          by_cases htop : stF.dist tv = ⊤
          · rw [pqBacktrack_top hInv htop] at h
            exact DijkstraResult.noConfusion h
          · obtain ⟨p, c, hok, _⟩ := pqBacktrack_full hInv hWF htop
            rw [hok] at h
            exact DijkstraResult.noConfusion h
        · exact DijkstraResult.noConfusion h
        · exact DijkstraResult.noConfusion h

/-- On a valid graph with an unreachable target, the heap implementation
silently returns the pair `([target], inf)`. -/
theorem pq_unreachable (g : GraphL V) (s t : V) (hWF : WFGraph g)
    (hN : NonnegWeights g) (hC : ClosedGraph g) (hs : s ∈ keys g) (ht : t ∈ keys g)
    (hur : ¬ Reachable g s t) : pqDijkstra g s (some t) = .pathCost [t] ⊤ := by
  obtain ⟨stF, hF⟩ := pqLoop_fin_of_valid hC hN (some t) (popOrder g s) (pqInit g s)
  obtain ⟨done, snap, hInv⟩ := pqRun_inv hWF (some t) hF
  have htop : stF.dist t = ⊤ := by
    by_contra hne
    obtain ⟨d, hd⟩ := WithTop.ne_top_iff_exists.mp hne
    exact hur ⟨d, hInv.distReach t d hd.symm hs⟩
  have hg : ¬ (s ∉ keys g ∨ t ∉ keys g) := by
    rintro (h | h)
    · exact h hs
    · exact h ht
  simp only [pqDijkstra, if_neg hg, hF, pqFinish, pqBacktrack_top hInv htop, htop]

/-- Every `(path, cost)` return of the heap implementation with a finite
cost carries a genuine walk of the graph from the source to the target
(whose weight, however, need not equal the returned cost). -/
theorem pq_path_runs (g : GraphL V) (s t : V) (hWF : WFGraph g) {p : List V}
    {cost : Cost} (h : pqDijkstra g s (some t) = .pathCost p cost) (hfin : cost ≠ ⊤) :
    ∃ q c, p = s :: q ∧ IsPathTo g s q t c := by
  simp only [pqDijkstra] at h
  by_cases hg : s ∉ keys g ∨ t ∉ keys g
  · rw [if_pos hg] at h
    exact absurd h (fun h => DijkstraResult.noConfusion h)
  · rw [if_neg hg] at h
    rcases hcase : pqLoop g (some t) (popOrder g s) (pqInit g s) with stF | _ | _ <;>
      rw [hcase] at h
    · obtain ⟨done, snap, hInv⟩ := pqRun_inv hWF (some t) hcase
      simp only [pqFinish] at h
      by_cases htop : stF.dist t = ⊤
      · rw [pqBacktrack_top hInv htop] at h
        have hc : cost = ⊤ := by
          cases h
          exact htop.symm ▸ rfl
        exact absurd hc hfin
      · obtain ⟨q, c, hok, hpath⟩ := pqBacktrack_full hInv hWF htop
        rw [hok] at h
        cases h
        exact ⟨q, c, rfl, hpath⟩
    · exact absurd h (fun h => DijkstraResult.noConfusion h)
    · exact absurd h (fun h => DijkstraResult.noConfusion h)

/-! ## Properties of the linear frontier scan -/

theorem selectMin_mem {dist : V → Cost} :
    ∀ {l : List V} {u : V}, selectMin dist l = some u → u ∈ l := by
  intro l
  induction l with
  | nil => intro u h; exact absurd h (fun h => Option.noConfusion h)
  | cons v rest ih =>
      intro u h
      cases hsel : selectMin dist rest with
      | none =>
          simp only [selectMin, hsel] at h
          cases h
          exact List.mem_cons_self _ _
      | some w =>
          simp only [selectMin, hsel] at h
          by_cases hle : dist v ≤ dist w
          · rw [if_pos hle] at h
            cases h
            exact List.mem_cons_self _ _
          · rw [if_neg hle] at h
            cases h
            exact List.mem_cons_of_mem _ (ih hsel)

theorem selectMin_isSome {dist : V → Cost} {l : List V} (h : l ≠ []) :
    ∃ u, selectMin dist l = some u := by
  cases l with
  | nil => exact absurd rfl h
  | cons v rest =>
      cases hsel : selectMin dist rest with
      | none => exact ⟨v, by simp [selectMin, hsel]⟩
      | some w =>
          by_cases hle : dist v ≤ dist w
          · exact ⟨v, by simp [selectMin, hsel, hle]⟩
          · exact ⟨w, by simp [selectMin, hsel, hle]⟩

theorem selectMin_min {dist : V → Cost} :
    ∀ {l : List V} {u : V}, selectMin dist l = some u → ∀ v ∈ l, dist u ≤ dist v := by
  intro l
  induction l with
  | nil => intro u h; exact absurd h (fun h => Option.noConfusion h)
  | cons v rest ih =>
      intro u h x hx
      cases hsel : selectMin dist rest with
      | none =>
          simp only [selectMin, hsel] at h
          cases h
          rcases List.mem_cons.mp hx with h1 | h1
          · rw [h1]
          · cases rest with
            | nil => exact absurd h1 (List.not_mem_nil _)
            | cons a b =>
                obtain ⟨u', hu'⟩ :=
                  @selectMin_isSome _ _ dist _ (List.cons_ne_nil a b)
                rw [hu'] at hsel
                exact Option.noConfusion hsel
      | some w =>
          simp only [selectMin, hsel] at h
          by_cases hle : dist v ≤ dist w
          · rw [if_pos hle] at h
            cases h
            rcases List.mem_cons.mp hx with h1 | h1
            · rw [h1]
            · exact le_trans hle (ih hsel x h1)
          · rw [if_neg hle] at h
            cases h
            rcases List.mem_cons.mp hx with h1 | h1
            · rw [h1]
              exact le_of_lt (not_le.mp hle)
            · exact ih hsel x h1

theorem idxIn_le_length (l : List V) (v : V) : idxIn l v ≤ l.length := by
  induction l with
  | nil => exact le_rfl
  | cons a l ih =>
      by_cases hv : v = a
      · simp [idxIn, hv]
      · simp only [idxIn, if_neg hv, List.length_cons]
        omega

/-! ## Termination invariant of the linear loop (holds for every input) -/

structure LinTermInv (g : GraphL V) (source : V) (popped : List V) (st : LinSt V) :
    Prop where
  poppedNodup : popped.Nodup
  poppedKeys : ∀ v ∈ popped, v ∈ keys g
  unvisitedKeys : ∀ v ∈ st.unvisited, v ∈ keys g
  unvisitedNodup : st.unvisited.Nodup
  disj : ∀ v ∈ popped, v ∉ st.unvisited
  prevLink : ∀ v u, st.prev v = some u → u ∈ popped ∧
      (v ∈ st.unvisited ∨ (v ∈ popped ∧ idxIn popped u < idxIn popped v))
  prevSome : ∀ v, v ≠ source → st.dist v ≠ ⊤ → st.prev v ≠ none

/-- Relaxation preserves the termination invariant (for any weights). -/
theorem linRelax_term_inv {g : GraphL V} {source u : V} {popped : List V}
    (hu : u ∈ popped) :
    ∀ (l : AdjList V) (st st' : LinSt V), LinTermInv g source popped st →
      linRelax source u l st = .ok st' →
      LinTermInv g source popped st' ∧ st'.unvisited = st.unvisited := by
  intro l
  induction l with
  | nil =>
      intro st st' hInv hrel
      simp only [linRelax] at hrel
      cases hrel
      exact ⟨hInv, rfl⟩
  | cons e rest ih =>
      intro st st' hInv hrel
      obtain ⟨v, w⟩ := e
      simp only [linRelax] at hrel
      by_cases hv : v ∈ st.unvisited
      · rw [if_pos hv] at hrel
        by_cases hw : w < 0
        · rw [if_pos hw] at hrel
          exact absurd hrel (fun h => RelaxOut.noConfusion h)
        · rw [if_neg hw] at hrel
          have hupd : ∀ (d : Cost) (pv : V), pv ∈ popped →
              LinTermInv g source popped
                { st with dist := fun x => if x = v then d else st.dist x,
                          prev := fun x => if x = v then some pv else st.prev x } := by
            intro d pv hpv
            refine ⟨hInv.poppedNodup, hInv.poppedKeys, hInv.unvisitedKeys,
              hInv.unvisitedNodup, hInv.disj, ?_, ?_⟩
            · intro x u0 hx
              by_cases hxv : x = v
              · simp only [if_pos hxv] at hx
                cases hx
                exact ⟨hpv, .inl (hxv ▸ hv)⟩
              · simp only [if_neg hxv] at hx
                exact hInv.prevLink x u0 hx
            · intro x hxs hxd
              by_cases hxv : x = v
              · simp only [if_pos hxv]
                exact fun h => Option.noConfusion h
              · simp only [if_neg hxv] at hxd ⊢
                exact hInv.prevSome x hxs hxd
          by_cases hus : u = source
          · rw [if_pos hus] at hrel
            obtain ⟨hInv', hsame⟩ := ih _ st' (hupd (w : Cost) source (hus ▸ hu)) hrel
            exact ⟨hInv', hsame⟩
          · rw [if_neg hus] at hrel
            by_cases himp : st.dist u + (w : Cost) < st.dist v
            · rw [if_pos himp] at hrel
              obtain ⟨hInv', hsame⟩ := ih _ st' (hupd _ u hu) hrel
              exact ⟨hInv', hsame⟩
            · rw [if_neg himp] at hrel
              exact ih _ st' hInv hrel
      · rw [if_neg hv] at hrel
        exact ih _ st' hInv hrel

/-- Once the frontier is empty, backtracking never exhausts its fuel: each
predecessor link moves strictly earlier in the pop order. -/
theorem linBacktrack_ne_fuelOut {g : GraphL V} {source : V} {popped : List V}
    {st : LinSt V} (hInv : LinTermInv g source popped st)
    (hEmpty : st.unvisited = []) :
    ∀ (n : Nat) (p : V) (acc : List V) (fuel : Nat),
      idxIn popped p ≤ n → n < fuel →
      linBacktrack st.prev source fuel p acc ≠ .fuelOut := by
  intro n
  induction n with
  | zero =>
      intro p acc fuel hidx hfuel
      obtain ⟨f, rfl⟩ : ∃ f, fuel = f + 1 := ⟨fuel - 1, by omega⟩
      by_cases hps : p = source
      · simp [linBacktrack, hps]
      · simp only [linBacktrack, if_neg hps]
        cases hp : st.prev p with
        | none => exact fun h => BtOut.noConfusion h
        | some q =>
            exfalso
            obtain ⟨hq, hcase⟩ := hInv.prevLink p q hp
            rcases hcase with h1 | ⟨h1, h2⟩
            · rw [hEmpty] at h1
              exact absurd h1 (List.not_mem_nil _)
            · omega
  | succ n ihn =>
      intro p acc fuel hidx hfuel
      obtain ⟨f, rfl⟩ : ∃ f, fuel = f + 1 := ⟨fuel - 1, by omega⟩
      by_cases hps : p = source
      · simp [linBacktrack, hps]
      · simp only [linBacktrack, if_neg hps]
        cases hp : st.prev p with
        | none => exact fun h => BtOut.noConfusion h
        | some q =>
            obtain ⟨hq, hcase⟩ := hInv.prevLink p q hp
            rcases hcase with h1 | ⟨h1, h2⟩
            · rw [hEmpty] at h1
              exact absurd h1 (List.not_mem_nil _)
            · exact ihn q (p :: acc) f (by omega) (by omega)

/-- Popping the selected vertex preserves the termination invariant. -/
theorem linTermInv_pop {g : GraphL V} {source : V} {popped : List V} {st : LinSt V}
    (hInv : LinTermInv g source popped st) {u : V} (hu : u ∈ st.unvisited) :
    LinTermInv g source (popped ++ [u])
      { st with unvisited := st.unvisited.erase u } := by
  have hufr : u ∉ popped := fun h => hInv.disj u h hu
  refine ⟨?_, ?_, ?_, ?_, ?_, ?_, ?_⟩
  · refine List.Nodup.append hInv.poppedNodup (List.nodup_singleton u) ?_
    intro a ha hb
    rw [List.mem_singleton] at hb
    exact hufr (hb ▸ ha)
  · intro v hv
    rcases List.mem_append.mp hv with h | h
    · exact hInv.poppedKeys v h
    · rw [List.mem_singleton.mp h]
      exact hInv.unvisitedKeys u hu
  · intro v hv
    exact hInv.unvisitedKeys v (List.mem_of_mem_erase hv)
  · exact hInv.unvisitedNodup.erase u
  · intro v hv
    rcases List.mem_append.mp hv with h | h
    · exact fun hm => hInv.disj v h (List.mem_of_mem_erase hm)
    · rw [List.mem_singleton.mp h]
      intro hm
      exact ((List.Nodup.mem_erase_iff hInv.unvisitedNodup).mp hm).1 rfl
  · intro v u0 hp
    obtain ⟨hq, hcase⟩ := hInv.prevLink v u0 hp
    refine ⟨List.mem_append_left _ hq, ?_⟩
    rcases hcase with h1 | ⟨h1, h2⟩
    · by_cases hvu : v = u
      · right
        refine ⟨List.mem_append_right _ (by rw [hvu]; exact List.mem_singleton_self u), ?_⟩
        rw [idxIn_append_of_mem _ hq, hvu, idxIn_append_self hufr]
        exact idxIn_lt_length hq
      · left
        exact (List.Nodup.mem_erase_iff hInv.unvisitedNodup).mpr ⟨hvu, h1⟩
    · right
      refine ⟨List.mem_append_left _ h1, ?_⟩
      rw [idxIn_append_of_mem _ hq, idxIn_append_of_mem _ h1]
      exact h2
  · exact hInv.prevSome

/-- Under the termination invariant, the linear loop with enough fuel never
reaches the fuel marker. -/
theorem linLoop_ne_diverge {g : GraphL V} {source : V} (target : Option V) :
    ∀ (fuel : Nat) (popped : List V) (st : LinSt V),
      LinTermInv g source popped st → st.unvisited.length ≤ fuel →
      linLoop g source target fuel st ≠ .diverge := by
  intro fuel
  induction fuel with
  | zero =>
      intro popped st hInv hlen
      have hEmpty : st.unvisited = [] := List.length_eq_zero.mp (by omega)
      rw [show linLoop g source target 0 st = linFinish g source target st by
        simp [linLoop, hEmpty]]
      cases target with
      | none => simp [linFinish]
      | some t =>
          simp only [linFinish]
          have hne := linBacktrack_ne_fuelOut hInv hEmpty (keys g).length t []
            ((keys g).length + 1) ?_ (by omega)
          · cases hbt : linBacktrack st.prev source ((keys g).length + 1) t [] with
            | ok p => exact fun h => DijkstraResult.noConfusion h
            | keyErr => exact fun h => DijkstraResult.noConfusion h
            | fuelOut => exact absurd hbt hne
          · calc idxIn popped t ≤ popped.length := idxIn_le_length popped t
              _ ≤ (keys g).length :=
                  length_le_of_nodup_subset hInv.poppedNodup hInv.poppedKeys
  | succ fuel ih =>
      intro popped st hInv hlen
      by_cases hEmpty : st.unvisited = []
      · rw [show linLoop g source target (fuel + 1) st = linFinish g source target st by
          simp [linLoop, hEmpty]]
        cases target with
        | none => simp [linFinish]
        | some t =>
            simp only [linFinish]
            have hne := linBacktrack_ne_fuelOut hInv hEmpty (keys g).length t []
              ((keys g).length + 1) ?_ (by omega)
            · cases hbt : linBacktrack st.prev source ((keys g).length + 1) t [] with
              | ok p => exact fun h => DijkstraResult.noConfusion h
              | keyErr => exact fun h => DijkstraResult.noConfusion h
              | fuelOut => exact absurd hbt hne
            · calc idxIn popped t ≤ popped.length := idxIn_le_length popped t
                _ ≤ (keys g).length :=
                    length_le_of_nodup_subset hInv.poppedNodup hInv.poppedKeys
      · obtain ⟨u, hsel⟩ := @selectMin_isSome _ _ st.dist _ hEmpty
        simp only [linLoop, if_neg hEmpty, hsel]
        by_cases hT : target = some u ∧ st.dist u = ⊤
        · rw [if_pos hT]
          exact fun h => DijkstraResult.noConfusion h
        · rw [if_neg hT]
          have humem : u ∈ st.unvisited := selectMin_mem hsel
          have hInv1 := linTermInv_pop hInv humem
          cases hrel : linRelax source u (adjOf g u)
              { st with unvisited := st.unvisited.erase u } with
          | negEdge => exact fun h => DijkstraResult.noConfusion h
          | ok st2 =>
              obtain ⟨hInv2, hsame⟩ := linRelax_term_inv
                (List.mem_append_right _ (List.mem_singleton_self u)) _ _ _ hInv1 hrel
              refine ih (popped ++ [u]) st2 hInv2 ?_
              rw [hsame]
              simp only []
              have := List.length_erase_of_mem humem
              omega

/-- The linear implementation terminates on every input over a well-formed
graph: no run reaches the fuel marker. -/
theorem linDijkstra_ne_diverge (g : GraphL V) (s : V) (t : Option V) (hWF : WFGraph g) :
    linDijkstra g s t ≠ .diverge := by
  have hInit : LinTermInv g s [] (linInit g s) := by
    refine ⟨List.nodup_nil, ?_, ?_, hWF.1, ?_, ?_, ?_⟩
    · intro v hv; exact absurd hv (List.not_mem_nil v)
    · intro v hv; exact hv
    · intro v hv; exact absurd hv (List.not_mem_nil v)
    · intro v u hp; exact absurd hp (fun h => Option.noConfusion h)
    · intro v hvs hvd
      exact absurd (by simp [linInit, hvs]) hvd
  cases t with
  | none =>
      simp only [linDijkstra]
      exact linLoop_ne_diverge none (keys g).length [] (linInit g s) hInit le_rfl
  | some tv =>
      simp only [linDijkstra]
      by_cases hg : s ∉ keys g ∨ tv ∉ keys g
      · rw [if_pos hg]
        exact fun h => DijkstraResult.noConfusion h
      · rw [if_neg hg]
        by_cases hst : s = tv
        · rw [if_pos hst]
          exact fun h => DijkstraResult.noConfusion h
        · rw [if_neg hst]
          exact linLoop_ne_diverge (some tv) (keys g).length [] (linInit g s) hInit le_rfl

/-- C10: Both dijkstra functions terminate on every well-formed input graph
and any source/target arguments: no call ever reaches the fuel marker —
every call produces a returned value or a raised error.  The linear scan's
main loop removes exactly one vertex from `unvisited` per iteration, the
heap loop consumes its once-filled pop list entry by entry, and both
backward path-reconstruction loops follow predecessor chains that provably
cannot cycle (they reach their stopping vertex or raise `KeyError`). -/
theorem c10_theorem (g : GraphL V) (s : V) (t : Option V) (hWF : WFGraph g) :
    linDijkstra g s t ≠ .diverge ∧ pqDijkstra g s t ≠ .diverge :=
  ⟨linDijkstra_ne_diverge g s t hWF, pqDijkstra_ne_diverge g s t hWF⟩

/-- C10 witness: instantiation on the first sample graph. -/
theorem c10_witness :
    linDijkstra sampleG1 5 (some 4) ≠ .diverge ∧
    pqDijkstra sampleG1 5 (some 4) ≠ .diverge :=
  c10_theorem sampleG1 5 (some 4) (by decide)

/-! ## More reachability toolkit -/

/-- Walk restrictions are monotone in the side condition. -/
theorem reachesVia_mono {g : GraphL V} {P Q : V → Prop} (hPQ : ∀ x, P x → Q x) :
    ∀ {s v : V} {c : Int}, ReachesVia g P s v c → ReachesVia g Q s v c := by
  intro s v c h
  induction h with
  | refl hu => exact ReachesVia.refl _ hu
  | step hp hv he ih => exact ih.step (hPQ _ hv) he

/-- A vertex with an outgoing edge is a key. -/
theorem mem_keys_of_adj {g : GraphL V} {v x : V} {w : Int}
    (he : (x, w) ∈ adjOf g v) : v ∈ keys g := by
  by_contra hv
  rw [adjOf_eq_nil_of_not_mem hv] at he
  exact absurd he (List.not_mem_nil _)

/-- With non-negative weights, every walk has non-negative total weight. -/
theorem reaches_nonneg {g : GraphL V} (hNN : NonnegWeights g) {P : V → Prop} :
    ∀ {s v : V} {c : Int}, ReachesVia g P s v c → 0 ≤ c := by
  intro s v c h
  induction h with
  | refl hu => exact le_rfl
  | step hp hv he ih =>
      have := nonneg_adjOf hNN _ _ he
      omega

/-- First-exit decomposition of a walk with respect to a vertex predicate:
either the whole walk stays inside `P` (except possibly its endpoint), or it
has a first vertex `y` outside `P`, splitting the walk there. -/
theorem reaches_split {g : GraphL V} (P : V → Prop) :
    ∀ {s z : V} {c : Int}, Reaches g s z c →
      ReachesVia g P s z c ∨
      ∃ y c1 c2, ¬ P y ∧ ReachesVia g P s y c1 ∧ Reaches g y z c2 ∧ c = c1 + c2 := by
  intro s z c h
  induction h with
  | refl hu => exact .inl (ReachesVia.refl _ hu)
  | @step v x c w hp hv he ih =>
      rcases ih with hvia | ⟨y, c1, c2, hny, hvia, hr, hsum⟩
      · by_cases hPv : P v
        · exact .inl (hvia.step hPv he)
        · refine .inr ⟨v, c, w, hPv, hvia, ?_, rfl⟩
          have hvk : v ∈ keys g := mem_keys_of_adj he
          have : Reaches g v x (0 + w) :=
            (ReachesVia.refl v hvk).step trivial he
          simpa using this
      · refine .inr ⟨y, c1, c2 + w, hny, hvia, hr.step trivial he, by omega⟩

/-! ## Walk lists and the `Reaches` relation coincide -/

theorem mem_of_lookupW {g : GraphL V} {y x : V} {w : Int}
    (h : lookupW g y x = some w) : (x, w) ∈ adjOf g y := by
  simp only [lookupW, Option.map_eq_some'] at h
  obtain ⟨e, he, hsnd⟩ := h
  have hmem := List.mem_of_find?_eq_some he
  have hfst := List.find?_some he
  have : e.1 = x := by simpa using hfst
  have : e = (x, w) := by
    rcases e with ⟨a, b⟩
    simp only at this hsnd
    rw [this, hsnd]
  exact this ▸ hmem

/-- Splitting a walk list at its final vertex. -/
theorem pathWeight_snoc_inv {g : GraphL V} :
    ∀ {q : List V} {s x : V} {c : Int},
      pathWeight g s (q ++ [x]) = some c →
      ∃ y c1 w, (s :: q).getLast? = some y ∧ pathWeight g s q = some c1 ∧
        lookupW g y x = some w ∧ c = c1 + w := by
  intro q
  induction q with
  | nil =>
      intro s x c h
      simp only [List.nil_append, pathWeight] at h
      cases hw : lookupW g s x with
      | none => rw [hw] at h; exact absurd h (fun h => Option.noConfusion h)
      | some w =>
          rw [hw] at h
          simp only [pathWeight, Option.map_some] at h
          have : w + 0 = c := Option.some.inj h
          exact ⟨s, 0, w, rfl, rfl, hw, by omega⟩
  | cons b q ih =>
      intro s x c h
      cases hwb : lookupW g s b with
      | none =>
          simp only [List.cons_append, pathWeight, hwb] at h
          exact absurd h (fun h => Option.noConfusion h)
      | some w1 =>
          simp only [List.cons_append, pathWeight, hwb, List.append_eq] at h
          cases hrest : pathWeight g b (q ++ [x]) with
          | none => rw [hrest] at h; exact absurd h (fun h => Option.noConfusion h)
          | some c2 =>
              rw [hrest] at h
              have hc : w1 + c2 = c := Option.some.inj (show some (w1 + c2) = some c from h)
              obtain ⟨y, c1, w, hy, hq, hw, hsum⟩ := ih hrest
              refine ⟨y, w1 + c1, w, ?_, ?_, hw, by omega⟩
              · rwa [List.getLast?_cons_cons]
              · simp only [pathWeight, hwb, hq]
                rfl

/-- Every `ReachesVia` derivation is realised by an explicit walk list. -/
theorem reaches_to_path {g : GraphL V} (hWF : WFGraph g) {P : V → Prop} :
    ∀ {s v : V} {c : Int}, ReachesVia g P s v c → ∃ p, IsPathTo g s p v c := by
  intro s v c h
  induction h with
  | refl hu => exact ⟨[], rfl, by simp⟩
  | @step v x c w hp hv he ih =>
      obtain ⟨p, hpw, hpl⟩ := ih
      exact ⟨p ++ [x], pathWeight_snoc hpw hpl (lookupW_eq_of_mem hWF he),
        getLast?_cons_snoc p⟩

/-- Every walk list gives a `Reaches` derivation. -/
theorem path_to_reaches {g : GraphL V} {s : V} (hs : s ∈ keys g) :
    ∀ {p : List V} {v : V} {c : Int}, IsPathTo g s p v c → Reaches g s v c := by
  intro p
  induction p using List.reverseRecOn with
  | nil =>
      intro v c h
      obtain ⟨hw, hl⟩ := h
      have hv : s = v := by simpa using hl
      have hc : c = 0 := by simpa [pathWeight] using hw.symm
      subst hv
      subst hc
      exact ReachesVia.refl s hs
  | append_singleton q x ih =>
      intro v c h
      obtain ⟨hw, hl⟩ := h
      have hv : x = v := by
        have hgl := getLast?_cons_snoc (s := s) (v := x) q
        rw [hgl] at hl
        exact Option.some.inj hl
      subst hv
      obtain ⟨y, c1, w, hy, hq, hwy, hsum⟩ := pathWeight_snoc_inv hw
      have hreach : Reaches g s y c1 := ih ⟨hq, hy⟩
      have hstep := hreach.step trivial (mem_of_lookupW hwy)
      rw [hsum]
      exact hstep

/-- Effect of one relaxation pass of `dijkstra.py` when the relaxed vertex
`u` is already off the frontier: each unvisited neighbour is either
strictly improved through `u` (recording `u` as its predecessor) or left
untouched with no improvement available, and nothing else changes.  The
hypothesis about the source covers the unconditional assignment of lines
85–87: when `u` is the source, its distance is `0` and all unvisited
neighbours are still at `inf`, so the unconditional assignment coincides
with a strict relaxation. -/
theorem linRelax_spec {g : GraphL V} {source u : V} :
    ∀ (l : AdjList V) (st st' : LinSt V),
      (l.map Prod.fst).Nodup → u ∉ st.unvisited →
      (u = source → st.dist u = 0 ∧ ∀ e ∈ l, e.1 ∈ st.unvisited → st.dist e.1 = ⊤) →
      linRelax source u l st = .ok st' →
      st'.unvisited = st.unvisited ∧
      (∀ v, v ∉ st.unvisited → st'.dist v = st.dist v ∧ st'.prev v = st.prev v) ∧
      (∀ v, v ∈ st.unvisited →
        (∃ w : Int, (v, w) ∈ l ∧ 0 ≤ w ∧ st.dist u + (w : Cost) < st.dist v ∧
          st'.dist v = st.dist u + (w : Cost) ∧ st'.prev v = some u) ∨
        (st'.dist v = st.dist v ∧ st'.prev v = st.prev v ∧
          ∀ w : Int, (v, w) ∈ l → ¬ (st.dist u + (w : Cost) < st.dist v))) := by
  intro l
  induction l with
  | nil =>
      intro st st' _ _ _ hrel
      simp only [linRelax] at hrel
      cases hrel
      exact ⟨rfl, fun v _ => ⟨rfl, rfl⟩,
        fun v _ => .inr ⟨rfl, rfl, fun w hw => absurd hw (List.not_mem_nil _)⟩⟩
  | cons e rest ih =>
      intro st st' hnd hu hsrc hrel
      obtain ⟨v0, w0⟩ := e
      have hndr : (rest.map Prod.fst).Nodup := (List.nodup_cons.mp hnd).2
      have hv0r : v0 ∉ rest.map Prod.fst := (List.nodup_cons.mp hnd).1
      simp only [linRelax] at hrel
      by_cases hv0 : v0 ∈ st.unvisited
      · rw [if_pos hv0] at hrel
        have hune : u ≠ v0 := fun h => hu (h ▸ hv0)
        by_cases hw0 : w0 < 0
        · rw [if_pos hw0] at hrel
          exact absurd hrel (fun h => RelaxOut.noConfusion h)
        · rw [if_neg hw0] at hrel
          have hbranch :
              (st.dist u + (w0 : Cost) < st.dist v0 ∧
                linRelax source u rest
                  { st with
                    dist := fun x => if x = v0 then st.dist u + (w0 : Cost) else st.dist x,
                    prev := fun x => if x = v0 then some u else st.prev x } = .ok st') ∨
              (¬ (st.dist u + (w0 : Cost) < st.dist v0) ∧
                linRelax source u rest st = .ok st') := by
            by_cases hus : u = source
            · rw [if_pos hus] at hrel
              obtain ⟨hd0, htop⟩ := hsrc hus
              have himp0 : st.dist u + (w0 : Cost) < st.dist v0 := by
                rw [htop (v0, w0) (List.mem_cons_self _ _) hv0, hd0, zero_add]
                exact WithTop.coe_lt_top w0
              left
              refine ⟨himp0, ?_⟩
              have hdeq : (fun x => if x = v0 then (w0 : Cost) else st.dist x)
                  = (fun x => if x = v0 then st.dist u + (w0 : Cost) else st.dist x) := by
                funext x
                by_cases hx : x = v0
                · rw [if_pos hx, if_pos hx, hd0, zero_add]
                · rw [if_neg hx, if_neg hx]
              have hpeq : (fun x => if x = v0 then some source else st.prev x)
                  = (fun x => if x = v0 then some u else st.prev x) := by
                funext x
                rw [hus]
              rw [← hdeq, ← hpeq]
              exact hrel
            · rw [if_neg hus] at hrel
              by_cases himp : st.dist u + (w0 : Cost) < st.dist v0
              · rw [if_pos himp] at hrel
                exact .inl ⟨himp, hrel⟩
              · rw [if_neg himp] at hrel
                exact .inr ⟨himp, hrel⟩
          rcases hbranch with ⟨himp0, hrel'⟩ | ⟨hnimp, hrel'⟩
          · have hsrc1 : u = source →
                (if u = v0 then st.dist u + (w0 : Cost) else st.dist u) = 0 ∧
                ∀ e ∈ rest, e.1 ∈ st.unvisited →
                  (if e.1 = v0 then st.dist u + (w0 : Cost) else st.dist e.1) = ⊤ := by
              intro hus
              obtain ⟨hd0, htop⟩ := hsrc hus
              refine ⟨by rw [if_neg hune]; exact hd0, ?_⟩
              intro e he hmem
              have hne : e.1 ≠ v0 :=
                fun hh => hv0r (hh ▸ List.mem_map_of_mem Prod.fst he)
              rw [if_neg hne]
              exact htop e (List.mem_cons_of_mem _ he) hmem
            obtain ⟨hU, hOut, hIn⟩ :=
              ih { st with
                    dist := fun x => if x = v0 then st.dist u + (w0 : Cost) else st.dist x,
                    prev := fun x => if x = v0 then some u else st.prev x } st'
                hndr hu hsrc1 hrel'
            dsimp only at hU hOut hIn
            refine ⟨hU, ?_, ?_⟩
            · intro v hv
              have hne : v ≠ v0 := fun hh => hv (hh ▸ hv0)
              obtain ⟨hd, hp⟩ := hOut v hv
              rw [hd, hp]
              rw [if_neg hne, if_neg hne]
              exact ⟨rfl, rfl⟩
            · intro v hv
              by_cases hvv : v = v0
              · subst hvv
                rcases hIn v hv with ⟨w', hw', _, _, _, _⟩ | ⟨hd', hp', _⟩
                · exact absurd (List.mem_map_of_mem Prod.fst hw') (by exact hv0r)
                · left
                  refine ⟨w0, List.mem_cons_self _ _, not_lt.mp hw0, himp0, ?_, ?_⟩
                  · rw [hd', if_pos rfl]
                  · rw [hp', if_pos rfl]
              · rcases hIn v hv with ⟨w', hw', h0', himp', hd', hp'⟩ | ⟨hd', hp', hno⟩
                · left
                  rw [if_neg hune, if_neg hvv] at himp'
                  rw [if_neg hune] at hd'
                  exact ⟨w', List.mem_cons_of_mem _ hw', h0', himp', hd', hp'⟩
                · right
                  rw [if_neg hvv] at hd'
                  rw [if_neg hvv] at hp'
                  refine ⟨hd', hp', ?_⟩
                  intro w hw
                  rcases List.mem_cons.mp hw with hh | hh
                  · exact absurd (congrArg Prod.fst hh) hvv
                  · have := hno w hh
                    rw [if_neg hune, if_neg hvv] at this
                    exact this
          · obtain ⟨hU, hOut, hIn⟩ := ih _ st' hndr hu
              (fun hus => ⟨(hsrc hus).1,
                fun e he hm => (hsrc hus).2 e (List.mem_cons_of_mem _ he) hm⟩) hrel'
            refine ⟨hU, hOut, ?_⟩
            · intro v hv
              rcases hIn v hv with ⟨w', hw', h0', himp', hd', hp'⟩ | ⟨hd', hp', hno⟩
              · exact .inl ⟨w', List.mem_cons_of_mem _ hw', h0', himp', hd', hp'⟩
              · right
                refine ⟨hd', hp', ?_⟩
                intro w hw
                rcases List.mem_cons.mp hw with hh | hh
                · have hv' : v = v0 := congrArg Prod.fst hh
                  have hw' : w = w0 := congrArg Prod.snd hh
                  subst hv'
                  subst hw'
                  exact hnimp
                · exact hno w hh
      · rw [if_neg hv0] at hrel
        obtain ⟨hU, hOut, hIn⟩ := ih _ st' hndr hu
          (fun hus => ⟨(hsrc hus).1,
            fun e he hm => (hsrc hus).2 e (List.mem_cons_of_mem _ he) hm⟩) hrel
        refine ⟨hU, hOut, ?_⟩
        intro v hv
        rcases hIn v hv with ⟨w', hw', h0', himp', hd', hp'⟩ | ⟨hd', hp', hno⟩
        · exact .inl ⟨w', List.mem_cons_of_mem _ hw', h0', himp', hd', hp'⟩
        · right
          refine ⟨hd', hp', ?_⟩
          intro w hw
          rcases List.mem_cons.mp hw with hh | hh
          · have hv' : v = v0 := congrArg Prod.fst hh
            exact absurd (hv' ▸ hv) hv0
          · exact hno w hh

/-! ## Small helpers for the linear-scan correctness proof -/

/-- In a well-formed graph, each adjacency list has duplicate-free keys. -/
theorem adjOf_nodup {g : GraphL V} (hWF : WFGraph g) (u : V) :
    ((adjOf g u).map Prod.fst).Nodup := by
  by_cases hu : u ∈ keys g
  · exact hWF.2 (u, adjOf g u) (mem_of_adjOf hu)
  · rw [adjOf_eq_nil_of_not_mem hu]
    exact List.nodup_nil

/-- With duplicate-free adjacency keys, a head determines its weight. -/
theorem snd_eq_of_nodup_mem {l : AdjList V} {v : V} {w w' : Int}
    (hnd : (l.map Prod.fst).Nodup) (h1 : (v, w) ∈ l) (h2 : (v, w') ∈ l) :
    w = w' := by
  have e1 := find?_eq_of_nodup_mem hnd h1
  have e2 := find?_eq_of_nodup_mem hnd h2
  rw [e1] at e2
  exact congrArg Prod.snd (Option.some.inj e2)

/-- Every walk starts at a key of the graph. -/
theorem reachesVia_start_mem {g : GraphL V} {P : V → Prop} :
    ∀ {s v : V} {c : Int}, ReachesVia g P s v c → s ∈ keys g := by
  intro s v c h
  induction h with
  | refl hu => exact hu
  | step hp hv he ih => exact ih

/-- A strict bound on a sum with a finite increment forces the base finite. -/
theorem cost_lt_finite_left {a b : Cost} {w : Int} (h : a + (w : Cost) < b) :
    ∃ da : Int, a = (da : Cost) := by
  induction a using WithTop.recTopCoe with
  | top =>
      rw [top_add] at h
      exact absurd h (not_top_lt)
  | coe da => exact ⟨da, rfl⟩

/-- When every examined weight is non-negative, the relaxation pass of
`dijkstra.py` never raises `ValueError`. -/
theorem linRelax_ok_of_nonneg {source u : V} :
    ∀ (l : AdjList V) (st : LinSt V), (∀ e ∈ l, 0 ≤ e.2) →
      ∃ st', linRelax source u l st = .ok st' := by
  intro l
  induction l with
  | nil => exact fun st _ => ⟨st, rfl⟩
  | cons e rest ih =>
      intro st hnn
      obtain ⟨v, w⟩ := e
      have hw : ¬ w < 0 := not_lt.mpr (hnn (v, w) (List.mem_cons_self _ _))
      have hrest : ∀ e ∈ rest, 0 ≤ e.2 :=
        fun e he => hnn e (List.mem_cons_of_mem _ he)
      simp only [linRelax]
      by_cases hv : v ∈ st.unvisited
      · rw [if_pos hv, if_neg hw]
        by_cases hus : u = source
        · rw [if_pos hus]
          exact ih _ hrest
        · rw [if_neg hus]
          by_cases himp : st.dist u + (w : Cost) < st.dist v
          · rw [if_pos himp]
            exact ih _ hrest
          · rw [if_neg himp]
            exact ih _ hrest
      · rw [if_neg hv]
        exact ih _ hrest

/-- On the initial distance table (`0` at the source, `inf` elsewhere) the
scan of `dijkstra.py` selects the source first. -/
theorem selectMin_init {source : V} :
    ∀ {l : List V}, source ∈ l →
      selectMin (fun v => if v = source then (0 : Cost) else ⊤) l = some source := by
  intro l
  induction l with
  | nil => intro h; exact absurd h (List.not_mem_nil _)
  | cons v rest ih =>
      intro h
      by_cases hv : v = source
      · cases hsel : selectMin (fun v => if v = source then (0 : Cost) else ⊤) rest with
        | none => simp [selectMin, hsel, hv]
        | some w =>
            have hle : (if v = source then (0 : Cost) else ⊤) ≤
                (if w = source then (0 : Cost) else ⊤) := by
              rw [if_pos hv]
              by_cases hw : w = source
              · rw [if_pos hw]
              · rw [if_neg hw]
                exact le_top
            simp only [selectMin, hsel]
            rw [if_pos hle, hv]
      · have h' : source ∈ rest := (List.mem_cons.mp h).resolve_left
          (fun he => hv he.symm)
        have hsel := ih h'
        have hnle : ¬ ((if v = source then (0 : Cost) else ⊤) ≤ (0 : Cost)) := by
          rw [if_neg hv]
          simp
        simp only [selectMin, hsel, if_true]
        rw [if_neg hnle]

/-! ## The correctness invariant of the `dijkstra.py` main loop -/

/-- Invariant of the linear-scan loop after the vertices of `popped` (in
that order) have been removed from `unvisited` and relaxed.  `realized`,
`minimal` and `frontier` are the classic Dijkstra facts: every finite
tentative distance is the weight of an actual walk through popped
vertices, every popped vertex is settled at its true minimum, and every
edge out of a popped vertex has been relaxed.  The `prev*` fields tie the
predecessor table to the distance table for path reconstruction. -/
structure LinInv (g : GraphL V) (source : V) (popped : List V) (st : LinSt V) :
    Prop where
  poppedNodup : popped.Nodup
  poppedKeys : ∀ v ∈ popped, v ∈ keys g
  unvisitedIff : ∀ v, v ∈ st.unvisited ↔ (v ∈ keys g ∧ v ∉ popped)
  unvisitedNodup : st.unvisited.Nodup
  srcPopped : source ∈ popped
  srcDist : st.dist source = 0
  realized : ∀ v, ∀ d : Int, st.dist v = (d : Cost) →
    ReachesVia g (· ∈ popped) source v d
  minimal : ∀ u ∈ popped, ∀ c : Int, Reaches g source u c → st.dist u ≤ (c : Cost)
  frontier : ∀ v ∈ st.unvisited, ∀ u ∈ popped, ∀ w : Int, (v, w) ∈ adjOf g u →
    st.dist v ≤ st.dist u + (w : Cost)
  prevLink : ∀ v u, st.prev v = some u → ∃ w du : Int, (v, w) ∈ adjOf g u ∧
    0 ≤ w ∧ st.dist u = (du : Cost) ∧ st.dist v = ((du + w : Int) : Cost) ∧
    u ∈ popped
  prevIdx : ∀ v u, st.prev v = some u → v ∈ popped →
    idxIn popped u < idxIn popped v
  prevSome : ∀ v, v ≠ source → ∀ d : Int, st.dist v = (d : Cost) →
    st.prev v ≠ none

/-- Any walk that stays among popped vertices until a key endpoint is an
upper bound for the endpoint's tentative distance. -/
theorem linInv_sPathBound {g : GraphL V} {source : V} {popped : List V}
    {st : LinSt V} (inv : LinInv g source popped st) :
    ∀ {y : V} {c : Int}, ReachesVia g (· ∈ popped) source y c → y ∈ keys g →
      st.dist y ≤ (c : Cost) := by
  intro y c h
  induction h with
  | refl hu =>
      intro _
      rw [inv.srcDist]
      exact_mod_cast le_refl (0 : Int)
  | @step v x c w hp hv he ih =>
      intro hxk
      have hvk : v ∈ keys g := inv.poppedKeys v hv
      have ihv : st.dist v ≤ (c : Cost) := ih hvk
      by_cases hx : x ∈ st.unvisited
      · calc st.dist x ≤ st.dist v + (w : Cost) := inv.frontier x hx v hv w he
          _ ≤ (c : Cost) + (w : Cost) := add_le_add_right ihv _
          _ = ((c + w : Int) : Cost) := by push_cast; ring
      · have hxp : x ∈ popped := by
          by_contra hxp
          exact hx ((inv.unvisitedIff x).mpr ⟨hxk, hxp⟩)
        have hreach : Reaches g source x (c + w) :=
          (reachesVia_mono (fun _ _ => trivial) hp).step trivial he
        exact inv.minimal x hxp (c + w) hreach

/-- When `dijkstra.py` pops the nearest unvisited vertex, that vertex is
already settled: no walk from the source beats its tentative distance. -/
theorem linInv_pop_min {g : GraphL V} {source u : V} {popped : List V}
    {st : LinSt V} (hNN : NonnegWeights g) (inv : LinInv g source popped st)
    (hsel : selectMin st.dist st.unvisited = some u) :
    ∀ c : Int, Reaches g source u c → st.dist u ≤ (c : Cost) := by
  intro c h
  have huMem : u ∈ st.unvisited := selectMin_mem hsel
  have huk : u ∈ keys g := ((inv.unvisitedIff u).mp huMem).1
  rcases reaches_split (· ∈ popped) h with hvia | ⟨y, c1, c2, hny, hvia, hr, hsum⟩
  · exact linInv_sPathBound inv hvia huk
  · have hyk : y ∈ keys g := reachesVia_start_mem hr
    have hyu : y ∈ st.unvisited := (inv.unvisitedIff y).mpr ⟨hyk, hny⟩
    have h1 : st.dist u ≤ st.dist y := selectMin_min hsel y hyu
    have h2 : st.dist y ≤ (c1 : Cost) := linInv_sPathBound inv hvia hyk
    have h3 : (0 : Int) ≤ c2 := reaches_nonneg hNN hr
    calc st.dist u ≤ (c1 : Cost) := h1.trans h2
      _ ≤ (c : Cost) := by
          rw [hsum]
          exact_mod_cast by omega

/-- One full iteration of the `dijkstra.py` loop body — pop the nearest
unvisited vertex `u`, then relax its out-edges — extends the invariant
from `popped` to `popped ++ [u]`. -/
theorem linInv_step {g : GraphL V} {source u : V} {popped : List V}
    {st st2 : LinSt V} (hWF : WFGraph g) (hNN : NonnegWeights g)
    (inv : LinInv g source popped st)
    (hsel : selectMin st.dist st.unvisited = some u)
    (hrel : linRelax source u (adjOf g u)
      { st with unvisited := st.unvisited.erase u } = .ok st2) :
    LinInv g source (popped ++ [u]) st2 := by
  have huMem : u ∈ st.unvisited := selectMin_mem hsel
  have huk : u ∈ keys g := ((inv.unvisitedIff u).mp huMem).1
  have hup : u ∉ popped := ((inv.unvisitedIff u).mp huMem).2
  have hus : u ≠ source := fun he => hup (by rw [he]; exact inv.srcPopped)
  have hu1 : u ∉ st.unvisited.erase u := by
    intro hmem
    exact ((inv.unvisitedNodup.mem_erase_iff).mp hmem).1 rfl
  obtain ⟨hU, hOut, hIn⟩ :=
    linRelax_spec (g := g) (adjOf g u) { st with unvisited := st.unvisited.erase u }
      st2 (adjOf_nodup hWF u) hu1 (fun he => absurd he hus) hrel
  dsimp only at hU hOut hIn
  have hmem_pp : ∀ v : V, v ∈ popped ++ [u] ↔ (v ∈ popped ∨ v = u) := by
    intro v
    simp
  have hpopN : ∀ p ∈ popped, p ∉ st.unvisited.erase u := by
    intro p hpm hmem
    exact ((inv.unvisitedIff p).mp (List.mem_of_mem_erase hmem)).2 hpm
  have hdu : st2.dist u = st.dist u := (hOut u hu1).1
  have hpu : st2.prev u = st.prev u := (hOut u hu1).2
  have minu : ∀ c : Int, Reaches g source u c → st.dist u ≤ (c : Cost) :=
    linInv_pop_min hNN inv hsel
  refine ⟨?_, ?_, ?_, ?_, ?_, ?_, ?_, ?_, ?_, ?_, ?_, ?_⟩
  · exact inv.poppedNodup.append (List.nodup_singleton u)
      (fun a ha hb => hup ((List.mem_singleton.mp hb) ▸ ha))
  · intro v hv
    rcases (hmem_pp v).mp hv with h | h
    · exact inv.poppedKeys v h
    · rw [h]
      exact huk
  · intro v
    rw [hU, inv.unvisitedNodup.mem_erase_iff]
    constructor
    · rintro ⟨hne, hvU⟩
      obtain ⟨hk, hnp⟩ := (inv.unvisitedIff v).mp hvU
      refine ⟨hk, ?_⟩
      intro hmem
      rcases (hmem_pp v).mp hmem with h | h
      · exact hnp h
      · exact hne h
    · rintro ⟨hk, hnp⟩
      have hne : v ≠ u := fun he => hnp ((hmem_pp v).mpr (.inr he))
      have hnop : v ∉ popped := fun hp => hnp ((hmem_pp v).mpr (.inl hp))
      exact ⟨hne, (inv.unvisitedIff v).mpr ⟨hk, hnop⟩⟩
  · rw [hU]
    exact inv.unvisitedNodup.erase u
  · exact List.mem_append_left _ inv.srcPopped
  · have hsrc_ne : source ∉ st.unvisited.erase u := by
      intro hmem
      exact ((inv.unvisitedIff source).mp (List.mem_of_mem_erase hmem)).2 inv.srcPopped
    rw [(hOut source hsrc_ne).1, inv.srcDist]
  · intro v d hd
    by_cases hvU : v ∈ st.unvisited.erase u
    · rcases hIn v hvU with ⟨w, hw, h0, himp, hdv, hpv⟩ | ⟨hdv, hpv, hno⟩
      · rw [hdv] at hd
        obtain ⟨du, hdu', hsum⟩ := cost_add_finite hd
        have hru' : ReachesVia g (· ∈ popped ++ [u]) source u du :=
          reachesVia_mono (fun x hx => List.mem_append_left _ hx)
            (inv.realized u du hdu')
        have hstep := hru'.step (List.mem_append_right _ (List.mem_singleton_self u)) hw
        rw [show d = du + w from by omega]
        exact hstep
      · rw [hdv] at hd
        exact reachesVia_mono (fun x hx => List.mem_append_left _ hx)
          (inv.realized v d hd)
    · rw [(hOut v hvU).1] at hd
      exact reachesVia_mono (fun x hx => List.mem_append_left _ hx)
        (inv.realized v d hd)
  · intro p hp c hc
    rcases (hmem_pp p).mp hp with h | h
    · rw [(hOut p (hpopN p h)).1]
      exact inv.minimal p h c hc
    · subst h
      rw [hdu]
      exact minu c hc
  · intro v hv p hp w hew
    rw [hU] at hv
    have hvU : v ∈ st.unvisited := List.mem_of_mem_erase hv
    have hdp : st2.dist p = st.dist p := by
      rcases (hmem_pp p).mp hp with h | h
      · exact (hOut p (hpopN p h)).1
      · rw [h]
        exact hdu
    rw [hdp]
    rcases hIn v hv with ⟨w', hw', h0', himp', hdv, hpv⟩ | ⟨hdv, hpv, hno⟩
    · rcases (hmem_pp p).mp hp with h | h
      · rw [hdv]
        calc st.dist u + (w' : Cost) ≤ st.dist v := le_of_lt himp'
          _ ≤ st.dist p + (w : Cost) := inv.frontier v hvU p h w hew
      · subst h
        have hww : w = w' := snd_eq_of_nodup_mem (adjOf_nodup hWF p) hew hw'
        rw [hdv, hww]
    · rcases (hmem_pp p).mp hp with h | h
      · rw [hdv]
        exact inv.frontier v hvU p h w hew
      · subst h
        rw [hdv]
        exact not_lt.mp (hno w hew)
  · intro v p hpv
    by_cases hvU : v ∈ st.unvisited.erase u
    · rcases hIn v hvU with ⟨w, hw, h0, himp, hdv, hpv'⟩ | ⟨hdv, hpv', hno⟩
      · have hpu' : p = u := by
          rw [hpv'] at hpv
          exact (Option.some.inj hpv).symm
        subst hpu'
        obtain ⟨du, hdu'⟩ := cost_lt_finite_left himp
        refine ⟨w, du, hw, h0, ?_, ?_,
          List.mem_append_right _ (List.mem_singleton_self p)⟩
        · rw [hdu]
          exact hdu'
        · rw [hdv, hdu']
          norm_cast
      · rw [hpv'] at hpv
        obtain ⟨w, du, hw, h0, hdp, hdv', hp_pop⟩ := inv.prevLink v p hpv
        refine ⟨w, du, hw, h0, ?_, ?_, List.mem_append_left _ hp_pop⟩
        · rw [(hOut p (hpopN p hp_pop)).1]
          exact hdp
        · rw [hdv]
          exact hdv'
    · rw [(hOut v hvU).2] at hpv
      obtain ⟨w, du, hw, h0, hdp, hdv', hp_pop⟩ := inv.prevLink v p hpv
      refine ⟨w, du, hw, h0, ?_, ?_, List.mem_append_left _ hp_pop⟩
      · rw [(hOut p (hpopN p hp_pop)).1]
        exact hdp
      · rw [(hOut v hvU).1]
        exact hdv'
  · intro v p hpv hvpp
    rcases (hmem_pp v).mp hvpp with hvold | hvu
    · have hvne : v ∉ st.unvisited.erase u := by
        intro hmem
        exact ((inv.unvisitedIff v).mp (List.mem_of_mem_erase hmem)).2 hvold
      rw [(hOut v hvne).2] at hpv
      obtain ⟨w, du, _, _, _, _, hp_pop⟩ := inv.prevLink v p hpv
      rw [idxIn_append_of_mem _ hp_pop, idxIn_append_of_mem _ hvold]
      exact inv.prevIdx v p hpv hvold
    · subst hvu
      rw [hpu] at hpv
      obtain ⟨w, du, _, _, _, _, hp_pop⟩ := inv.prevLink v p hpv
      rw [idxIn_append_of_mem _ hp_pop, idxIn_append_self hup]
      exact idxIn_lt_length hp_pop
  · intro v hvs d hd
    by_cases hvU : v ∈ st.unvisited.erase u
    · rcases hIn v hvU with ⟨w, hw, h0, himp, hdv, hpv⟩ | ⟨hdv, hpv, hno⟩
      · rw [hpv]
        exact fun h => Option.noConfusion h
      · rw [hpv]
        rw [hdv] at hd
        exact inv.prevSome v hvs d hd
    · rw [(hOut v hvU).2]
      rw [(hOut v hvU).1] at hd
      exact inv.prevSome v hvs d hd

/-- The first iteration of the `dijkstra.py` loop pops the source (the only
vertex at a finite initial distance) and establishes the invariant with
`popped = [source]`. -/
theorem linInv_first {g : GraphL V} {source : V} {st2 : LinSt V}
    (hWF : WFGraph g) (hNN : NonnegWeights g) (hs : source ∈ keys g)
    (hrel : linRelax source source (adjOf g source)
      { linInit g source with unvisited := (keys g).erase source } = .ok st2) :
    LinInv g source [source] st2 := by
  have hu1 : source ∉ (keys g).erase source := by
    intro hmem
    exact ((hWF.1.mem_erase_iff).mp hmem).1 rfl
  have hsrcH : source = source →
      ({ linInit g source with unvisited := (keys g).erase source } : LinSt V).dist
        source = 0 ∧
      ∀ e ∈ adjOf g source,
        e.1 ∈ ({ linInit g source with
          unvisited := (keys g).erase source } : LinSt V).unvisited →
        ({ linInit g source with unvisited := (keys g).erase source } : LinSt V).dist
          e.1 = ⊤ := by
    intro _
    constructor
    · show (if source = source then (0 : Cost) else ⊤) = 0
      rw [if_pos rfl]
    · intro e _ hmem
      have hne : e.1 ≠ source := ((hWF.1.mem_erase_iff).mp hmem).1
      show (if e.1 = source then (0 : Cost) else ⊤) = ⊤
      rw [if_neg hne]
  obtain ⟨hU, hOut, hIn⟩ :=
    linRelax_spec (g := g) (adjOf g source)
      { linInit g source with unvisited := (keys g).erase source }
      st2 (adjOf_nodup hWF source) hu1 hsrcH hrel
  dsimp only [linInit] at hU hOut hIn
  simp only [eq_self_iff_true, if_true, zero_add] at hIn
  have h6 : st2.dist source = 0 := by
    have := (hOut source hu1).1
    rwa [if_pos rfl] at this
  have h6p : st2.prev source = none := (hOut source hu1).2
  refine ⟨List.nodup_singleton source, ?_, ?_, ?_, List.mem_singleton_self source,
    h6, ?_, ?_, ?_, ?_, ?_, ?_⟩
  · intro v hv
    rw [List.mem_singleton.mp hv]
    exact hs
  · intro v
    rw [hU, hWF.1.mem_erase_iff, List.mem_singleton]
    constructor
    · rintro ⟨hne, hk⟩
      exact ⟨hk, hne⟩
    · rintro ⟨hk, hne⟩
      exact ⟨hne, hk⟩
  · rw [hU]
    exact hWF.1.erase source
  · intro v d hd
    by_cases hvU : v ∈ (keys g).erase source
    · have hvne : v ≠ source := ((hWF.1.mem_erase_iff).mp hvU).1
      rcases hIn v hvU with ⟨w, hw, h0, himp, hdv, hpv⟩ | ⟨hdv, hpv, hno⟩
      · rw [hdv] at hd
        have hdw : d = w := by exact_mod_cast hd.symm
        have hstep := (ReachesVia.refl (g := g)
            (P := (· ∈ [source])) source hs).step (List.mem_singleton_self source) hw
        rw [show d = 0 + w from by omega]
        exact hstep
      · rw [hdv, if_neg hvne] at hd
        exact absurd hd.symm (WithTop.coe_ne_top)
    · have hdv := (hOut v hvU).1
      by_cases hvs : v = source
      · subst hvs
        rw [h6] at hd
        have hd0 : d = 0 := by exact_mod_cast hd.symm
        rw [hd0]
        exact ReachesVia.refl v hs
      · rw [hdv, if_neg hvs] at hd
        exact absurd hd.symm (WithTop.coe_ne_top)
  · intro p hp c hc
    rw [List.mem_singleton.mp hp, h6]
    exact cost_coe_nonneg (reaches_nonneg hNN hc)
  · intro v hv p hp w hew
    rw [hU] at hv
    have hvne : v ≠ source := ((hWF.1.mem_erase_iff).mp hv).1
    have hps : p = source := List.mem_singleton.mp hp
    subst hps
    rw [h6, zero_add]
    rcases hIn v hv with ⟨w', hw', h0', himp', hdv, hpv⟩ | ⟨hdv, hpv, hno⟩
    · have hww : w = w' := snd_eq_of_nodup_mem (adjOf_nodup hWF p) hew hw'
      rw [hdv, hww]
    · have h := hno w hew
      rw [if_neg hvne] at h
      exact absurd (WithTop.coe_lt_top w) h
  · intro v p hpv
    by_cases hvU : v ∈ (keys g).erase source
    · rcases hIn v hvU with ⟨w, hw, h0, himp, hdv, hpv'⟩ | ⟨hdv, hpv', hno⟩
      · have hps : p = source := by
          rw [hpv'] at hpv
          exact (Option.some.inj hpv).symm
        subst hps
        refine ⟨w, 0, hw, h0, by exact_mod_cast h6, ?_, List.mem_singleton_self p⟩
        rw [hdv]
        norm_cast
        omega
      · rw [hpv'] at hpv
        exact absurd hpv (fun h => Option.noConfusion h)
    · rw [(hOut v hvU).2] at hpv
      exact absurd hpv (fun h => Option.noConfusion h)
  · intro v p hpv hvp
    rw [List.mem_singleton.mp hvp, h6p] at hpv
    exact absurd hpv (fun h => Option.noConfusion h)
  · intro v hvs d hd
    by_cases hvU : v ∈ (keys g).erase source
    · rcases hIn v hvU with ⟨w, hw, h0, himp, hdv, hpv⟩ | ⟨hdv, hpv, hno⟩
      · rw [hpv]
        exact fun h => Option.noConfusion h
      · rw [hdv, if_neg hvs] at hd
        exact absurd hd.symm (WithTop.coe_ne_top)
    · rw [(hOut v hvU).1, if_neg hvs] at hd
      exact absurd hd.symm (WithTop.coe_ne_top)

/-- The relaxation pass never touches the unvisited list. -/
theorem linRelax_unvisited {source u : V} :
    ∀ (l : AdjList V) (st st' : LinSt V),
      linRelax source u l st = .ok st' → st'.unvisited = st.unvisited := by
  intro l
  induction l with
  | nil =>
      intro st st' h
      simp only [linRelax] at h
      cases h
      rfl
  | cons e rest ih =>
      intro st st' h
      obtain ⟨v, w⟩ := e
      simp only [linRelax] at h
      by_cases hv : v ∈ st.unvisited
      · rw [if_pos hv] at h
        by_cases hw : w < 0
        · rw [if_pos hw] at h
          exact absurd h (fun h => RelaxOut.noConfusion h)
        · rw [if_neg hw] at h
          by_cases hus : u = source
          · rw [if_pos hus] at h
            rw [ih _ _ h]
          · rw [if_neg hus] at h
            by_cases himp : st.dist u + (w : Cost) < st.dist v
            · rw [if_pos himp] at h
              rw [ih _ _ h]
            · rw [if_neg himp] at h
              exact ih _ _ h
      · rw [if_neg hv] at h
        exact ih _ _ h

/-- A loop iteration never turns a finite tentative distance back into
`inf`: relaxation only lowers distances. -/
theorem linInv_step_ne_top {g : GraphL V} {source u : V} {popped : List V}
    {st st2 : LinSt V} (hWF : WFGraph g)
    (inv : LinInv g source popped st)
    (hsel : selectMin st.dist st.unvisited = some u)
    (hrel : linRelax source u (adjOf g u)
      { st with unvisited := st.unvisited.erase u } = .ok st2) :
    ∀ v, st.dist v ≠ ⊤ → st2.dist v ≠ ⊤ := by
  have huMem : u ∈ st.unvisited := selectMin_mem hsel
  have hup : u ∉ popped := ((inv.unvisitedIff u).mp huMem).2
  have hus : u ≠ source := fun he => hup (by rw [he]; exact inv.srcPopped)
  have hu1 : u ∉ st.unvisited.erase u := by
    intro hmem
    exact ((inv.unvisitedNodup.mem_erase_iff).mp hmem).1 rfl
  obtain ⟨hU, hOut, hIn⟩ :=
    linRelax_spec (g := g) (adjOf g u) { st with unvisited := st.unvisited.erase u }
      st2 (adjOf_nodup hWF u) hu1 (fun he => absurd he hus) hrel
  dsimp only at hU hOut hIn
  intro v hv
  by_cases hvU : v ∈ st.unvisited.erase u
  · rcases hIn v hvU with ⟨w, hw, h0, himp, hdv, _⟩ | ⟨hdv, _, _⟩
    · rw [hdv]
      intro htop
      rw [htop] at himp
      exact not_top_lt himp
    · rw [hdv]
      exact hv
  · rw [(hOut v hvU).1]
    exact hv

/-- Full run of the `dijkstra.py` main loop from an invariant state: it
either returns the `("unreachable", inf)` sentinel (only possible with a
target), or finishes on an invariant state with an empty frontier in which
every popped target kept a finite distance. -/
theorem linLoop_run {g : GraphL V} {source : V} (hWF : WFGraph g)
    (hNN : NonnegWeights g) (t : Option V) :
    ∀ (fuel : Nat) (popped : List V) (st : LinSt V), LinInv g source popped st →
      (∀ tv, t = some tv → tv ∈ popped → st.dist tv ≠ ⊤) →
      st.unvisited.length ≤ fuel →
      (∃ tv, t = some tv ∧ linLoop g source t fuel st = .strInfPair) ∨
      (∃ popped' st', LinInv g source popped' st' ∧ st'.unvisited = [] ∧
        (∀ tv, t = some tv → tv ∈ popped' → st'.dist tv ≠ ⊤) ∧
        linLoop g source t fuel st = linFinish g source t st') := by
  intro fuel
  induction fuel with
  | zero =>
      intro popped st inv tgtF hlen
      have hnil : st.unvisited = [] := List.eq_nil_of_length_eq_zero (by omega)
      right
      exact ⟨popped, st, inv, hnil, tgtF, by simp [linLoop, hnil]⟩
  | succ fuel ih =>
      intro popped st inv tgtF hlen
      by_cases hnil : st.unvisited = []
      · right
        exact ⟨popped, st, inv, hnil, tgtF, by simp [linLoop, hnil]⟩
      · obtain ⟨u, hsel⟩ := @selectMin_isSome _ _ st.dist _ hnil
        have huMem : u ∈ st.unvisited := selectMin_mem hsel
        by_cases hsent : t = some u ∧ st.dist u = ⊤
        · left
          refine ⟨u, hsent.1, ?_⟩
          simp only [linLoop, if_neg hnil, hsel]
          rw [if_pos hsent]
        · obtain ⟨st2, hrel⟩ := linRelax_ok_of_nonneg (adjOf g u)
            { st with unvisited := st.unvisited.erase u }
            (fun e he => nonneg_adjOf hNN u e he)
          have inv2 : LinInv g source (popped ++ [u]) st2 :=
            linInv_step hWF hNN inv hsel hrel
          have hntop := linInv_step_ne_top hWF inv hsel hrel
          have hloop : linLoop g source t (fuel + 1) st = linLoop g source t fuel st2 := by
            simp only [linLoop, if_neg hnil, hsel, if_neg hsent, hrel]
          have tgtFin2 : ∀ tv, t = some tv → tv ∈ popped ++ [u] → st2.dist tv ≠ ⊤ := by
            intro tv ht hmem
            rcases List.mem_append.mp hmem with h | h
            · exact hntop tv (tgtF tv ht h)
            · have htu : tv = u := List.mem_singleton.mp h
              refine hntop tv ?_
              intro htop
              exact hsent ⟨htu ▸ ht, htu ▸ htop⟩
          have hlen2 : st2.unvisited.length ≤ fuel := by
            have he1 : st2.unvisited = st.unvisited.erase u :=
              linRelax_unvisited _ _ _ hrel
            have he2 : (st.unvisited.erase u).length = st.unvisited.length - 1 :=
              List.length_erase_of_mem huMem
            have he3 : 0 < st.unvisited.length := List.length_pos.mpr hnil
            rw [he1, he2]
            omega
          rcases ih (popped ++ [u]) st2 inv2 tgtFin2 hlen2 with ⟨tv, ht, heq⟩ |
            ⟨p', s', a, b, c, heq⟩
          · left
            exact ⟨tv, ht, by rw [hloop]; exact heq⟩
          · right
            exact ⟨p', s', a, b, c, by rw [hloop]; exact heq⟩

/-- Path reconstruction of `dijkstra.py`: from any popped vertex at a
finite distance, following the predecessor table builds a walk from the
source whose weight is exactly that distance (the source itself is not
part of the built list). -/
theorem linBacktrack_inv {g : GraphL V} {source : V} {popped : List V}
    {st : LinSt V} (hWF : WFGraph g) (inv : LinInv g source popped st) :
    ∀ (n : Nat), ∀ v ∈ popped, ∀ d : Int, st.dist v = (d : Cost) →
      idxIn popped v < n → ∀ acc : List V,
      ∃ p, linBacktrack st.prev source n v acc = .ok (p ++ acc) ∧
        pathWeight g source p = some d ∧ (source :: p).getLast? = some v := by
  intro n
  induction n with
  | zero =>
      intro v hv d hd hidx acc
      exact absurd hidx (Nat.not_lt_zero _)
  | succ n ih =>
      intro v hv d hd hidx acc
      by_cases hvs : v = source
      · subst hvs
        have hd0 : d = 0 := by
          rw [inv.srcDist] at hd
          exact_mod_cast hd.symm
        refine ⟨[], by simp [linBacktrack], ?_, by simp⟩
        rw [hd0]
        rfl
      · have hps := inv.prevSome v hvs d hd
        cases hq : st.prev v with
        | none => exact absurd hq hps
        | some q =>
            obtain ⟨w, du, hew, h0, hdq, hdv, hq_pop⟩ := inv.prevLink v q hq
            have hd_eq : d = du + w := by
              rw [hdv] at hd
              exact_mod_cast hd.symm
            have hidx' : idxIn popped q < n := by
              have h1 := inv.prevIdx v q hq hv
              omega
            obtain ⟨p, hbk, hpw, hlast⟩ := ih q hq_pop du hdq hidx' (v :: acc)
            refine ⟨p ++ [v], ?_, ?_, getLast?_cons_snoc p⟩
            · simp only [linBacktrack, if_neg hvs, hq]
              rw [hbk, List.append_assoc, List.singleton_append]
            · rw [hd_eq]
              exact pathWeight_snoc hpw hlast (lookupW_eq_of_mem hWF hew)

/-- The full main-loop run of `dijkstra.py` (fuel as supplied by
`linDijkstra`): either the `("unreachable", inf)` sentinel fires for the
target, or the loop finishes on an invariant state with an empty frontier. -/
theorem linRun {g : GraphL V} {source : V} (hWF : WFGraph g) (hNN : NonnegWeights g)
    (hs : source ∈ keys g) (t : Option V) :
    (∃ tv, t = some tv ∧
      linLoop g source t (keys g).length (linInit g source) = .strInfPair) ∨
    (∃ popped' st', LinInv g source popped' st' ∧ st'.unvisited = [] ∧
      (∀ tv, t = some tv → tv ∈ popped' → st'.dist tv ≠ ⊤) ∧
      linLoop g source t (keys g).length (linInit g source)
        = linFinish g source t st') := by
  have hne : keys g ≠ [] := List.ne_nil_of_mem hs
  obtain ⟨m, hm⟩ : ∃ m, (keys g).length = m + 1 := by
    cases hk : keys g with
    | nil => exact absurd hk hne
    | cons a l => exact ⟨l.length, List.length_cons a l⟩
  obtain ⟨st2, hrel⟩ := linRelax_ok_of_nonneg (adjOf g source)
    { linInit g source with unvisited := (keys g).erase source }
    (fun e he => nonneg_adjOf hNN source e he)
  have inv2 : LinInv g source [source] st2 := linInv_first hWF hNN hs hrel
  have hsel : selectMin (fun v => if v = source then (0 : Cost) else ⊤) (keys g)
      = some source := selectMin_init hs
  have hstep : linLoop g source t (m + 1) (linInit g source)
      = linLoop g source t m st2 := by
    simp only [linLoop, linInit, hsel, if_neg hne]
    have hsent : ¬ (t = some source ∧ (if True then (0 : Cost) else ⊤) = ⊤) := by
      rintro ⟨_, h⟩
      rw [if_pos trivial] at h
      exact absurd h (by simp)
    rw [if_neg hsent]
    have hrel' : linRelax source source (adjOf g source)
        { unvisited := (keys g).erase source,
          dist := fun v => if v = source then (0 : Cost) else ⊤,
          prev := fun _ => (none : Option V) } = .ok st2 := hrel
    rw [hrel']
  have hlen2 : st2.unvisited.length ≤ m := by
    rw [linRelax_unvisited _ _ _ hrel]
    show ((keys g).erase source).length ≤ m
    rw [List.length_erase_of_mem hs]
    omega
  have tgt2 : ∀ tv, t = some tv → tv ∈ [source] → st2.dist tv ≠ ⊤ := by
    intro tv ht hmem
    rw [List.mem_singleton.mp hmem, inv2.srcDist]
    simp
  rcases linLoop_run hWF hNN t m [source] st2 inv2 tgt2 hlen2 with ⟨tv, ht, heq⟩ |
    ⟨p', s', a, b, c, heq⟩
  · left
    exact ⟨tv, ht, by rw [hm, hstep]; exact heq⟩
  · right
    exact ⟨p', s', a, b, c, by rw [hm, hstep]; exact heq⟩

/-- The no-target run of `dijkstra.py` is a correct Dijkstra: the first
returned dict maps every key to a cost which, when finite, is the weight of
an actual walk from the source and a lower bound for every walk, and, when
infinite, witnesses unreachability. -/
theorem lin_no_target_correct {g : GraphL V} {s : V} (hWF : WFGraph g)
    (hNN : NonnegWeights g) (hs : s ∈ keys g) :
    ∀ v ∈ keys g, ∃ c : Cost, fstAt (linDijkstra g s none) v = some (.num c) ∧
      (∀ d : Int, c = (d : Cost) →
        (∃ p, IsPathTo g s p v d) ∧ ∀ p' (d' : Int), IsPathTo g s p' v d' → d ≤ d') ∧
      (c = ⊤ → ∀ p (d : Int), ¬ IsPathTo g s p v d) := by
  rcases linRun hWF hNN hs none with ⟨tv, ht, _⟩ | ⟨p', st', inv, hemp, _, heq⟩
  · exact absurd ht (fun h => Option.noConfusion h)
  · intro v hv
    have hres : linDijkstra g s none = linFinish g s none st' := by
      simp only [linDijkstra]
      exact heq
    have hvp : v ∈ p' := by
      by_contra hvp
      have hmem : v ∈ st'.unvisited := (inv.unvisitedIff v).mpr ⟨hv, hvp⟩
      rw [hemp] at hmem
      exact absurd hmem (List.not_mem_nil v)
    refine ⟨st'.dist v, ?_, ?_, ?_⟩
    · rw [hres]
      simp only [linFinish, fstAt]
      rw [if_pos hv]
    · intro d hd
      constructor
      · exact reaches_to_path hWF
          (reachesVia_mono (fun _ _ => trivial) (inv.realized v d hd))
      · intro p'' d' hp
        have hr : Reaches g s v d' := path_to_reaches hs hp
        have hle := inv.minimal v hvp d' hr
        rw [hd] at hle
        exact_mod_cast hle
    · intro hc p'' d hp
      have hr : Reaches g s v d := path_to_reaches hs hp
      have hle := inv.minimal v hvp d hr
      rw [hc] at hle
      exact absurd (top_le_iff.mp hle) WithTop.coe_ne_top

/-- Every `(path, cost)` return of `dijkstra.py` with a target carries a
genuine walk `source :: path` of the graph ending at the target whose weight
equals the returned cost. -/
theorem lin_path_correct {g : GraphL V} {s t : V} (hWF : WFGraph g)
    (hNN : NonnegWeights g) {p : List V} {c : Cost}
    (h : linDijkstra g s (some t) = .pathCost p c) :
    ∃ d : Int, c = (d : Cost) ∧ IsPathTo g s p t d := by
  simp only [linDijkstra] at h
  by_cases hg : s ∉ keys g ∨ t ∉ keys g
  · rw [if_pos hg] at h
    exact absurd h (fun h => DijkstraResult.noConfusion h)
  · rw [if_neg hg] at h
    push_neg at hg
    obtain ⟨hs, ht⟩ := hg
    by_cases hst : s = t
    · rw [if_pos hst] at h
      exact absurd h (fun h => DijkstraResult.noConfusion h)
    · rw [if_neg hst] at h
      rcases linRun hWF hNN hs (some t) with ⟨tv, htv, heq⟩ |
        ⟨p', st', inv, hemp, tgtF, heq⟩
      · rw [heq] at h
        exact absurd h (fun h => DijkstraResult.noConfusion h)
      · rw [heq] at h
        have htp : t ∈ p' := by
          by_contra htp
          have hmem : t ∈ st'.unvisited := (inv.unvisitedIff t).mpr ⟨ht, htp⟩
          rw [hemp] at hmem
          exact absurd hmem (List.not_mem_nil t)
        have hfin : st'.dist t ≠ ⊤ := tgtF t rfl htp
        obtain ⟨d, hd⟩ : ∃ d : Int, st'.dist t = (d : Cost) := by
          obtain ⟨d, hd⟩ := WithTop.ne_top_iff_exists.mp hfin
          exact ⟨d, hd.symm⟩
        have hidx : idxIn p' t < (keys g).length + 1 := by
          have h1 : idxIn p' t < p'.length := idxIn_lt_length htp
          have h2 : p'.length ≤ (keys g).length :=
            length_le_of_nodup_subset inv.poppedNodup inv.poppedKeys
          omega
        obtain ⟨q, hbk, hpw, hlast⟩ :=
          linBacktrack_inv hWF inv ((keys g).length + 1) t htp d hd hidx []
        simp only [linFinish, hbk, List.append_nil] at h
        injection h with h1 h2
        refine ⟨d, ?_, ?_⟩
        · rw [← h2, hd]
        · rw [← h1]
          exact ⟨hpw, hlast⟩

/-- With a target that is a key but not reachable from the source,
`dijkstra.py` returns the ad-hoc pair `("unreachable", inf)`. -/
theorem lin_unreachable {g : GraphL V} {s t : V} (hWF : WFGraph g)
    (hNN : NonnegWeights g) (hs : s ∈ keys g) (ht : t ∈ keys g)
    (hur : ¬ Reachable g s t) : linDijkstra g s (some t) = .strInfPair := by
  have hst : s ≠ t := by
    intro he
    exact hur ⟨0, he ▸ ReachesVia.refl s hs⟩
  have hg : ¬ (s ∉ keys g ∨ t ∉ keys g) := by
    rintro (h | h)
    · exact h hs
    · exact h ht
  simp only [linDijkstra]
  rw [if_neg hg, if_neg hst]
  rcases linRun hWF hNN hs (some t) with ⟨tv, htv, heq⟩ |
    ⟨p', st', inv, hemp, tgtF, heq⟩
  · exact heq
  · exfalso
    have htp : t ∈ p' := by
      by_contra htp
      have hmem : t ∈ st'.unvisited := (inv.unvisitedIff t).mpr ⟨ht, htp⟩
      rw [hemp] at hmem
      exact absurd hmem (List.not_mem_nil t)
    have hfin : st'.dist t ≠ ⊤ := tgtF t rfl htp
    obtain ⟨d, hd⟩ := WithTop.ne_top_iff_exists.mp hfin
    exact hur ⟨d, reachesVia_mono (fun _ _ => trivial) (inv.realized t d hd.symm)⟩

/-- A result with the projections of a `(path, cost)` pair is that pair. -/
theorem eq_pathCost_of_proj {r : DijkstraResult V} {p : List V} {c : Cost}
    (hp : pathOf r = some p) (hc : costOf r = some c) : r = .pathCost p c := by
  cases r with
  | pathCost p' c' =>
      simp only [pathOf] at hp
      simp only [costOf] at hc
      rw [Option.some.inj hp, Option.some.inj hc]
  | tables f s => exact absurd hp (by simp [pathOf])
  | strInfPair => exact absurd hp (by simp [pathOf])
  | noneZero => exact absurd hp (by simp [pathOf])
  | lookupError => exact absurd hp (by simp [pathOf])
  | valueError => exact absurd hp (by simp [pathOf])
  | keyError => exact absurd hp (by simp [pathOf])
  | diverge => exact absurd hp (by simp [pathOf])

/-- C1: Amended claim.  On every well-formed graph with non-negative
weights and a source that is a key, the no-target call of `dijkstra.py`
returns a distance table that maps each key to the exact minimum of the
summed edge weights over all paths from the source (and to `inf` exactly
when no path exists); on the first sample graph both implementations
produce the claimed table `{s:0, a:1, b:3, c:3, d:2, e:4}` (the heap
variant is not correct on every such graph — see `c1_counterexample`). -/
theorem c1_theorem :
    (∀ (g : GraphL V) (s : V), WFGraph g → NonnegWeights g → s ∈ keys g →
      ∀ v ∈ keys g, ∃ c : Cost, fstAt (linDijkstra g s none) v = some (.num c) ∧
        (∀ d : Int, c = (d : Cost) →
          (∃ p, IsPathTo g s p v d) ∧
          ∀ p' (d' : Int), IsPathTo g s p' v d' → d ≤ d') ∧
        (c = ⊤ → ∀ p (d : Int), ¬ IsPathTo g s p v d)) ∧
    ((fstAt (linDijkstra sampleG1 5 none) 5 = some (.num ((0 : Int) : Cost)) ∧
      fstAt (linDijkstra sampleG1 5 none) 0 = some (.num ((1 : Int) : Cost)) ∧
      fstAt (linDijkstra sampleG1 5 none) 1 = some (.num ((3 : Int) : Cost)) ∧
      fstAt (linDijkstra sampleG1 5 none) 2 = some (.num ((3 : Int) : Cost)) ∧
      fstAt (linDijkstra sampleG1 5 none) 3 = some (.num ((2 : Int) : Cost)) ∧
      fstAt (linDijkstra sampleG1 5 none) 4 = some (.num ((4 : Int) : Cost))) ∧
     (sndAt (pqDijkstra sampleG1 5 none) 5 = some (.num ((0 : Int) : Cost)) ∧
      sndAt (pqDijkstra sampleG1 5 none) 0 = some (.num ((1 : Int) : Cost)) ∧
      sndAt (pqDijkstra sampleG1 5 none) 1 = some (.num ((3 : Int) : Cost)) ∧
      sndAt (pqDijkstra sampleG1 5 none) 2 = some (.num ((3 : Int) : Cost)) ∧
      sndAt (pqDijkstra sampleG1 5 none) 3 = some (.num ((2 : Int) : Cost)) ∧
      sndAt (pqDijkstra sampleG1 5 none) 4 = some (.num ((4 : Int) : Cost)))) :=
  ⟨fun g s hWF hNN hs => lin_no_target_correct hWF hNN hs, by decide⟩

theorem c1_witness :
    WFGraph chainGraph ∧ NonnegWeights chainGraph ∧ (3 : Nat) ∈ keys chainGraph ∧
    (2 : Nat) ∈ keys chainGraph ∧
    ∃ c : Cost, fstAt (linDijkstra chainGraph 3 none) 2 = some (.num c) ∧
      (∀ d : Int, c = (d : Cost) →
        (∃ p, IsPathTo chainGraph 3 p 2 d) ∧
        ∀ p' (d' : Int), IsPathTo chainGraph 3 p' 2 d' → d ≤ d') ∧
      (c = ⊤ → ∀ p (d : Int), ¬ IsPathTo chainGraph 3 p 2 d) :=
  ⟨by decide, by decide, by decide, by decide,
    c1_theorem.1 chainGraph 3 (by decide) (by decide) (by decide) 2 (by decide)⟩

/-- C3: Amended claim.  For `dijkstra.py` every successful `(path, cost)`
return has a finite cost and the returned path, with the source prepended
(the source itself is omitted from it), is a walk of the graph ending at
the target whose weights sum to the cost.  For `dijkstra_pq.py` the
returned path does start at the source and is a walk ending at the target,
but its weight need not equal the returned cost (see
`c3_counterexample`). -/
theorem c3_theorem (g : GraphL V) (s t : V) (hWF : WFGraph g)
    (hNN : NonnegWeights g) :
    (∀ p (c : Cost), linDijkstra g s (some t) = .pathCost p c →
      ∃ d : Int, c = (d : Cost) ∧ IsPathTo g s p t d) ∧
    (∀ p (c : Cost), pqDijkstra g s (some t) = .pathCost p c → c ≠ ⊤ →
      ∃ (q : List V) (d : Int), p = s :: q ∧ IsPathTo g s q t d) :=
  ⟨fun _ _ h => lin_path_correct hWF hNN h,
   fun _ _ h hfin => pq_path_runs g s t hWF h hfin⟩

theorem c3_witness :
    WFGraph sampleG1 ∧ NonnegWeights sampleG1 ∧
    pathOf (linDijkstra sampleG1 5 (some 4)) = some [0, 3, 4] ∧
    costOf (linDijkstra sampleG1 5 (some 4)) = some ((4 : Int) : Cost) ∧
    (∃ d : Int, ((4 : Int) : Cost) = (d : Cost) ∧ IsPathTo sampleG1 5 [0, 3, 4] 4 d) ∧
    WFGraph gadgetGraph ∧ NonnegWeights gadgetGraph ∧
    pathOf (pqDijkstra gadgetGraph 2 (some 3)) = some [2, 1, 0, 3] ∧
    costOf (pqDijkstra gadgetGraph 2 (some 3)) = some ((11 : Int) : Cost) ∧
    (∃ (q : List Nat) (d : Int), [2, 1, 0, 3] = 2 :: q ∧
      IsPathTo gadgetGraph 2 q 3 d) :=
  ⟨by decide, by decide, by decide, by decide,
    (c3_theorem sampleG1 5 4 (by decide) (by decide)).1 [0, 3, 4] ((4 : Int) : Cost)
      (eq_pathCost_of_proj (by decide) (by decide)),
    by decide, by decide, by decide, by decide,
    (c3_theorem gadgetGraph 2 3 (by decide) (by decide)).2 [2, 1, 0, 3]
      ((11 : Int) : Cost) (eq_pathCost_of_proj (by decide) (by decide)) (by decide)⟩

/-- C4: Amended claim.  With non-negative weights, both endpoints keys of
the graph, and the target unreachable, neither implementation raises a
typed error: `dijkstra.py` returns the ordinary tuple `("unreachable",
inf)` and `dijkstra_pq.py` silently returns the ordinary pair
`([target], inf)`. -/
theorem c4_theorem (g : GraphL V) (s t : V) (hWF : WFGraph g)
    (hNN : NonnegWeights g) (hC : ClosedGraph g) (hs : s ∈ keys g)
    (ht : t ∈ keys g) (hur : ¬ Reachable g s t) :
    linDijkstra g s (some t) = .strInfPair ∧
    pqDijkstra g s (some t) = .pathCost [t] ⊤ :=
  ⟨lin_unreachable hWF hNN hs ht hur, pq_unreachable g s t hWF hNN hC hs ht hur⟩

theorem c4_witness :
    WFGraph sampleG2 ∧ NonnegWeights sampleG2 ∧ ClosedGraph sampleG2 ∧
    (5 : Nat) ∈ keys sampleG2 ∧ (0 : Nat) ∈ keys sampleG2 ∧
    (linDijkstra sampleG2 5 (some 0) = .strInfPair ∧
     pqDijkstra sampleG2 5 (some 0) = .pathCost [0] ⊤) :=
  ⟨by decide, by decide, by decide, by decide, by decide,
    c4_theorem sampleG2 5 0 (by decide) (by decide) (by decide) (by decide)
      (by decide) (not_reachable_of_empty_adj (by decide) (by decide))⟩
